import Mathlib

/-!
Verification development for the `kandaq-static` encrypted metrics access layer.

The development shallowly embeds the two core source files:

* `src/maps/js/decrypt.js` — key-derivation/decryption engine, recursive
  decryption walk, secret acquisition, and the page-level load operation;
* `src/maps/js/crema-client.js` — the `CremaClient` cache-mode metrics client
  with its period fallback chain, in-memory cache, path resolution and the
  `search` escape hatch.

JSON documents are modelled by the inductive type `JsonValue`.
JavaScript truthiness, property lookup, `Object.entries` iteration and
`Map` operations are modelled explicitly.  JSON numbers are modelled as
integers (no claim depends on float formatting).  `JSON.parse(JSON.stringify(x))`
(a deep copy) is the identity in this value semantics.

The WebCrypto pipeline (PBKDF2 key derivation from the document's
`_encryption.salt` / `_encryption.iterations`, then base64 decode,
AES-GCM authenticated decryption, UTF-8 decode and `JSON.parse`) is
abstracted by an oracle `dec : String → Option JsonValue` giving, for a
ciphertext string, the parsed plaintext under the derived key; `none`
covers every failure mode (bad base64, authentication failure,
bad UTF-8, unparseable JSON).  The derivation is deterministic for a
given (secret, salt, iterations) triple, so one oracle per document
decryption session is faithful to the code, which derives one key per
`decryptSensitiveFields` call.
-/

/-- A JSON-like value as manipulated by the JavaScript code. -/
inductive JsonValue where
  | null
  | bool (b : Bool)
  | num (n : Int)
  | str (s : String)
  | arr (xs : List JsonValue)
  | obj (fs : List (String × JsonValue))

namespace JsonValue

/-- JavaScript truthiness of a JSON value (`undefined` never appears inside a
parsed JSON document; absence of a property is modelled by `Option.none` at
each lookup site). -/
def isTruthy : JsonValue → Bool
  | .null => false
  | .bool b => b
  | .num n => n != 0
  | .str s => s != ""
  | .arr _ => true
  | .obj _ => true

end JsonValue

/-- Property lookup in an object's field list (`obj[k]`); `none` models
JavaScript `undefined`.  JSON objects have no duplicate keys, so first-match
lookup is exact. -/
def getField (fs : List (String × JsonValue)) (k : String) : Option JsonValue :=
  (fs.find? (fun p => p.1 = k)).map (fun p => p.2)

/-- Property lookup on an arbitrary value: only objects carry named
properties in a parsed JSON document. -/
def jsGetOpt (v : JsonValue) (k : String) : Option JsonValue :=
  match v with
  | .obj fs => getField fs k
  | _ => none

/-- Property lookup with a default for the `undefined` case.  The source
stores `undefined` property reads into freshly built objects; both `undefined`
and `null` are falsy and no operation of this layer distinguishes them, so
`undefined` values inside built records are modelled as `null`. -/
def jsGetD (v : JsonValue) (k : String) (d : JsonValue) : JsonValue :=
  (jsGetOpt v k).getD d

/-- Truthiness of the property `k` of `v` (the idiom `if (v.k) ...`). -/
def hasTruthyField (v : JsonValue) (k : String) : Bool :=
  match jsGetOpt v k with
  | some w => w.isTruthy
  | none => false

/-- In-place property assignment `fs[k] = v` for a key already present:
JavaScript keeps the property's position and replaces its value. -/
def setField (fs : List (String × JsonValue)) (k : String) (v : JsonValue) :
    List (String × JsonValue) :=
  fs.map (fun p => if p.1 = k then (k, v) else p)

/-- Property assignment that appends the key when it is absent (the
behaviour of an object-literal override such as `{ ...data, k: v }`). -/
def setOrAppend (fs : List (String × JsonValue)) (k : String) (v : JsonValue) :
    List (String × JsonValue) :=
  if fs.any (fun p => p.1 = k) then setField fs k v else fs ++ [(k, v)]

/-- `Object.keys` of a value: the key list of an object, `[]` otherwise. -/
def objKeys (v : JsonValue) : List String :=
  match v with
  | .obj fs => fs.map (fun p => p.1)
  | _ => []

/-! ## String coercion (JavaScript `String(x)` as used by `atob`)

`decryptValue` passes `obj._data` to `atob`, which coerces its argument to a
string.  For parsed-JSON values the coercion is: strings unchanged, numbers
and booleans printed, `null` printed as `"null"`, arrays joined by `","` with
`null` elements becoming empty, objects printed as `"[object Object]"`. -/

mutual

/-- JavaScript `String(v)` on a parsed JSON value. -/
def jsToString : JsonValue → String
  | .null => "null"
  | .bool b => cond b "true" "false"
  | .num n => toString n
  | .str s => s
  | .arr xs => jsArrToString xs
  | .obj _ => "[object Object]"

/-- JavaScript `Array.prototype.join(",")` on the element list (`null`
elements print as the empty string inside a join). -/
def jsArrToString : List JsonValue → String
  | [] => ""
  | [.null] => ""
  | [x] => jsToString x
  | .null :: xs => "," ++ jsArrToString xs
  | x :: xs => jsToString x ++ "," ++ jsArrToString xs

end

/-! ## decrypt.js — the encryption engine (`src/maps/js/decrypt.js`) -/

/-- The single error message `decryptValue` throws on any failure
(source line 73). -/
def decryptFailMsg : String := "Failed to decrypt data. Invalid key or corrupted data."

/-- `decryptValue(encryptedBase64, key)` (decrypt.js lines 51-75): base64
decode, split nonce/ciphertext, AES-GCM decrypt, UTF-8 decode, `JSON.parse` —
all abstracted by the oracle `dec`; any failure in the `try` block is caught
and rethrown as the fixed `DecryptionError` message.  The argument is the raw
`_data` property value; `atob` coerces a non-string argument to a string. -/
def decryptValue (dec : String → Option JsonValue) (encData : JsonValue) :
    Except String JsonValue :=
  match dec (jsToString encData) with
  | some v => Except.ok v
  | none => Except.error decryptFailMsg

/-- The envelope test of the walk (decrypt.js line 107:
`typeof obj === 'object' && obj._encrypted && obj._data`): when it passes,
`some d` returns the (truthy) `_data` value handed to `decryptValue`.
Arrays in a parsed JSON document never carry named properties, so only
objects can be envelopes. -/
def envelopeData (fs : List (String × JsonValue)) : Option JsonValue :=
  if hasTruthyField (.obj fs) "_encrypted" then
    match getField fs "_data" with
    | some d => if d.isTruthy then some d else none
    | none => none
  else none

/-- A node is an encrypted envelope exactly when the walk's envelope test
passes on it. -/
def isEnvelope (v : JsonValue) : Bool :=
  match v with
  | .obj fs => (envelopeData fs).isSome
  | _ => false

mutual

/-- `decryptDataStructure(obj)` (decrypt.js lines 101-132): return `null`
unchanged; replace an envelope by its decrypted value; map over arrays
(`Promise.all` preserves element order, and the single rejection that
reaches the caller always carries `decryptFailMsg`, so sequential
first-error semantics is faithful); rebuild objects omitting the three
metadata keys and walking every other value; return primitives as-is. -/
def decryptDataStructure (dec : String → Option JsonValue) :
    JsonValue → Except String JsonValue
  | .null => Except.ok .null
  | .obj fs =>
    match envelopeData fs with
    | some d => decryptValue dec d
    | none =>
      match decryptFields dec fs with
      | Except.ok fs2 => Except.ok (.obj fs2)
      | Except.error e => Except.error e
  | .arr xs =>
    match decryptList dec xs with
    | Except.ok ys => Except.ok (.arr ys)
    | Except.error e => Except.error e
  | .bool b => Except.ok (.bool b)
  | .num n => Except.ok (.num n)
  | .str s => Except.ok (.str s)

/-- Element-wise walk over an array (decrypt.js line 113). -/
def decryptList (dec : String → Option JsonValue) :
    List JsonValue → Except String (List JsonValue)
  | [] => Except.ok []
  | x :: xs =>
    match decryptDataStructure dec x with
    | Except.error e => Except.error e
    | Except.ok y =>
      match decryptList dec xs with
      | Except.error e => Except.error e
      | Except.ok ys => Except.ok (y :: ys)

/-- Entry-wise walk over an object's fields (decrypt.js lines 117-127),
skipping the metadata keys `_encryption`, `_encrypted` and `_data`. -/
def decryptFields (dec : String → Option JsonValue) :
    List (String × JsonValue) → Except String (List (String × JsonValue))
  | [] => Except.ok []
  | (k, v) :: fs =>
    if k = "_encryption" ∨ k = "_encrypted" ∨ k = "_data" then
      decryptFields dec fs
    else
      match decryptDataStructure dec v with
      | Except.error e => Except.error e
      | Except.ok w =>
        match decryptFields dec fs with
        | Except.error e => Except.error e
        | Except.ok fs2 => Except.ok ((k, w) :: fs2)

end

/-- One step of decrypt.js lines 134-151: if the property `k` of the copied
document is truthy, replace it by its walked value. -/
def updateIfTruthy (dec : String → Option JsonValue)
    (fs : List (String × JsonValue)) (k : String) :
    Except String (List (String × JsonValue)) :=
  match getField fs k with
  | some v =>
    if v.isTruthy then
      match decryptDataStructure dec v with
      | Except.ok w => Except.ok (setField fs k w)
      | Except.error e => Except.error e
    else Except.ok fs
  | none => Except.ok fs

/-- `decryptSensitiveFields(data, password)` (decrypt.js lines 83-154):
without a truthy `_encryption` block the document is returned unchanged;
otherwise a key is derived from `(password, _encryption.salt,
_encryption.iterations || 100000)` — abstracted by `dec` — the document is
deep-copied (the identity here), and the walk is applied, in order, to the
truthy top-level properties `metrics`, `crema`, `source_targets` and
`all_metrics_data` of the copy.  Failures propagate; the error case carries
no document, so no partially decrypted output can be returned. -/
def decryptSensitiveFields (dec : String → Option JsonValue) (data : JsonValue) :
    Except String JsonValue :=
  match data with
  | .obj fs =>
    if hasTruthyField (.obj fs) "_encryption" then
      match updateIfTruthy dec fs "metrics" with
      | Except.error e => Except.error e
      | Except.ok fs1 =>
        match updateIfTruthy dec fs1 "crema" with
        | Except.error e => Except.error e
        | Except.ok fs2 =>
          match updateIfTruthy dec fs2 "source_targets" with
          | Except.error e => Except.error e
          | Except.ok fs3 =>
            match updateIfTruthy dec fs3 "all_metrics_data" with
            | Except.error e => Except.error e
            | Except.ok fs4 => Except.ok (.obj fs4)
    else Except.ok (.obj fs)
  | v => Except.ok v

/-! ## Spec-side predicates about envelopes

These are defined from the data model of the spec (an envelope is a node of
shape `{ _encrypted: true, _data: <ciphertext> }`), independently of the
walk, and are used to state the claims. -/

mutual

/-- A JSON value contains an encrypted envelope somewhere (at any depth). -/
def containsEnvelope : JsonValue → Bool
  | .arr xs => containsEnvelopeL xs
  | .obj fs => isEnvelope (.obj fs) || containsEnvelopeF fs
  | _ => false

/-- `containsEnvelope` over an array's elements. -/
def containsEnvelopeL : List JsonValue → Bool
  | [] => false
  | x :: xs => containsEnvelope x || containsEnvelopeL xs

/-- `containsEnvelope` over an object's field values. -/
def containsEnvelopeF : List (String × JsonValue) → Bool
  | [] => false
  | p :: fs => containsEnvelope p.2 || containsEnvelopeF fs

end

mutual

/-- No object node anywhere in the value carries any of the three metadata
keys `_encryption`, `_encrypted`, `_data` (in particular the value contains
no envelope). -/
def metaFree : JsonValue → Bool
  | .arr xs => metaFreeL xs
  | .obj fs => metaFreeF fs
  | _ => true

/-- `metaFree` over an array's elements. -/
def metaFreeL : List JsonValue → Bool
  | [] => true
  | x :: xs => metaFree x && metaFreeL xs

/-- `metaFree` over an object's fields. -/
def metaFreeF : List (String × JsonValue) → Bool
  | [] => true
  | (k, v) :: fs =>
    !(k = "_encryption" ∨ k = "_encrypted" ∨ k = "_data") && metaFree v && metaFreeF fs

end

mutual

/-- The walk, applied to this value, reaches an envelope whose ciphertext
fails to decrypt under `dec`.  Defined over the spec's recursive-walk
description: an envelope is atomic (its inside is never walked), array
elements are all walked, object fields other than the metadata keys are
walked. -/
def walkFails (dec : String → Option JsonValue) : JsonValue → Bool
  | .obj fs =>
    match envelopeData fs with
    | some d => (dec (jsToString d)).isNone
    | none => walkFailsF dec fs
  | .arr xs => walkFailsL dec xs
  | _ => false

/-- `walkFails` over an array's elements. -/
def walkFailsL (dec : String → Option JsonValue) : List JsonValue → Bool
  | [] => false
  | x :: xs => walkFails dec x || walkFailsL dec xs

/-- `walkFails` over an object's fields (metadata keys are not walked). -/
def walkFailsF (dec : String → Option JsonValue) : List (String × JsonValue) → Bool
  | [] => false
  | (k, v) :: fs =>
    (if k = "_encryption" ∨ k = "_encrypted" ∨ k = "_data" then false
     else walkFails dec v) || walkFailsF dec fs

end

/-- The four top-level properties that `decryptSensitiveFields` walks
(decrypt.js lines 134-151). -/
def walkedKeys : List String := ["metrics", "crema", "source_targets", "all_metrics_data"]

/-- Some walked (truthy) top-level property of the document makes the walk
hit a failing envelope. -/
def sensitiveFails (dec : String → Option JsonValue) (data : JsonValue) : Bool :=
  walkedKeys.any (fun k =>
    match jsGetOpt data k with
    | some v => v.isTruthy && walkFails dec v
    | none => false)

/-! ## String helpers (substring containment, joining)

Used to state properties about error-message contents. -/

/-- Boolean list-prefix test. -/
def isPrefixL : List Char → List Char → Bool
  | [], _ => true
  | _ :: _, [] => false
  | a :: as, b :: bs => a = b && isPrefixL as bs

/-- Boolean list-infix test (needle occurs contiguously in the haystack). -/
def isInfixL (n : List Char) : List Char → Bool
  | [] => isPrefixL n []
  | c :: t => isPrefixL n (c :: t) || isInfixL n t

/-- `strContains hay needle`: the needle occurs as a substring of the hay. -/
def strContains (hay needle : String) : Bool :=
  isInfixL needle.data hay.data

/-- JavaScript `Array.prototype.join(', ')` on a list of strings (as used to
render the available time ranges in an error message). -/
def joinComma : List String → String
  | [] => ""
  | [k] => k
  | k :: ks => k ++ ", " ++ joinComma ks

/-! ## decrypt.js — secret acquisition (`getDecryptionKey`, lines 441-468)

The browser storage environment: `sessionStorage` (session-scoped, cleared
when the browsing session ends) and `localStorage` (durable), both string
key/value stores, plus the outcome of the interactive password dialog
(`showPasswordDialog`, lines 160-435): `some p` when the user submits the
trimmed non-empty password `p`, `none` when the dialog is cancelled (Cancel
button, Escape, or outside click). -/
structure WebEnv where
  sessionStorage : List (String × String)
  localStorage : List (String × String)
  dialog : Option String

/-- `storage.getItem(k)`: `none` models the `null` of an absent key. -/
def storeGet (st : List (String × String)) (k : String) : Option String :=
  (st.find? (fun p => p.1 = k)).map (fun p => p.2)

/-- `storage.setItem(k, v)`: replace in place, or append a new key. -/
def storeSet (st : List (String × String)) (k : String) (v : String) :
    List (String × String) :=
  if st.any (fun p => p.1 = k) then
    st.map (fun p => if p.1 = k then (k, v) else p)
  else st ++ [(k, v)]

/-- Truthiness of a `getItem`/dialog result (`null` and `""` are falsy). -/
def truthyS : Option String → Bool
  | some s => s != ""
  | none => false

/-- JavaScript `a || b` on nullable strings. -/
def jsOrS (a b : Option String) : Option String :=
  if truthyS a then a else b

/-- The sessionStorage key used for the cached secret
(decrypt.js line 443). -/
def storageKey : String := "maps_dashboard_decryption_key"

/-- `getDecryptionKey()` (decrypt.js lines 441-468): (a) a truthy secret
already in `sessionStorage` under `storageKey`; else (b) a truthy
`api_token` from `localStorage` or `sessionStorage`; else (c) the password
dialog — a truthy dialog result is stored into `sessionStorage` under
`storageKey` and returned; a cancelled dialog yields `none`.  Returns the
obtained secret together with the updated storage environment. -/
def getDecryptionKey (env : WebEnv) : Option String × WebEnv :=
  let stored := storeGet env.sessionStorage storageKey
  if truthyS stored then (stored, env)
  else
    let apiToken := jsOrS (storeGet env.localStorage "api_token")
                          (storeGet env.sessionStorage "api_token")
    if truthyS apiToken then (apiToken, env)
    else
      match env.dialog with
      | some p =>
        if p != "" then
          (some p, { env with sessionStorage := storeSet env.sessionStorage storageKey p })
        else (none, env)
      | none => (none, env)

/-! ## decrypt.js — page-level load (`loadDecryptedDashboard`, lines 475-553)

The fetch of `dashboard_data.json` is abstracted by handing the function the
parsed document; the part after the fetch (lines 510-548) is embedded. -/

/-- The error message thrown when data is encrypted and no secret was
obtained (decrypt.js line 518). -/
def noKeyMsg : String := "Decryption key required but not provided"

/-- The period-not-found error message of `loadDecryptedDashboard`
(decrypt.js line 547), enumerating the periods present in the document. -/
def notFoundMsg (timeRange : String) (availableRanges : List String) : String :=
  "Time range '" ++ timeRange ++ "' not found in cache. Available ranges: " ++
    joinComma availableRanges

/-- The success shape of `loadDecryptedDashboard` (decrypt.js lines 532-538):
`{ ...data, metrics: data.metrics[timeRange], source_targets:
data.source_targets || {}, crema: data.crema || {} }`.  A literal override of
a key already present keeps its position; absent keys are appended in
literal order. -/
def assembleResult (fs : List (String × JsonValue)) (timeRange : String) : JsonValue :=
  let rec0 := (getField fs "metrics").bind (fun m => jsGetOpt m timeRange)
  let fs1 := setOrAppend fs "metrics" (rec0.getD .null)
  let st := match getField fs "source_targets" with
    | some v => if v.isTruthy then v else .obj []
    | none => .obj []
  let fs2 := setOrAppend fs1 "source_targets" st
  let cr := match getField fs "crema" with
    | some v => if v.isTruthy then v else .obj []
    | none => .obj []
  let fs3 := setOrAppend fs2 "crema" cr
  .obj fs3

/-- Lines 528-548 of decrypt.js: extract the requested time range from the
(decrypted) consolidated document, or throw the enumerating
period-not-found error (`availableRanges` is `Object.keys(data.metrics)`
when `data.metrics` is truthy, `[]` otherwise). -/
def extractTimeRange (data : JsonValue) (timeRange : String) : Except String JsonValue :=
  match jsGetOpt data "metrics" with
  | some m =>
    if m.isTruthy then
      match jsGetOpt m timeRange with
      | some r =>
        if r.isTruthy then
          match data with
          | .obj fs => Except.ok (assembleResult fs timeRange)
          | _ => Except.ok data
        else Except.error (notFoundMsg timeRange (objKeys m))
      | none => Except.error (notFoundMsg timeRange (objKeys m))
    else Except.error (notFoundMsg timeRange [])
  | none => Except.error (notFoundMsg timeRange [])

/-- The post-fetch pipeline of `loadDecryptedDashboard` (decrypt.js lines
510-548): if the fetched document carries a truthy `_encryption` block,
obtain a secret via `getDecryptionKey` — failing hard with `noKeyMsg` when
none is obtained — then decrypt via `decryptSensitiveFields` (the oracle
family `decFor` gives the decryption oracle derived from each candidate
password) and extract the requested time range.  `decFor` abstracts
`deriveKeyFromPassword` plus AES-GCM exactly as in `decryptSensitiveFields`. -/
def loadDashboardFromData (decFor : String → String → Option JsonValue)
    (env : WebEnv) (encryptedData : JsonValue) (timeRange : String) :
    Except String JsonValue × WebEnv :=
  if hasTruthyField encryptedData "_encryption" then
    match getDecryptionKey env with
    | (key, env1) =>
      if truthyS key then
        match key with
        | some k =>
          match decryptSensitiveFields (decFor k) encryptedData with
          | Except.error e => (Except.error e, env1)
          | Except.ok d => (extractTimeRange d timeRange, env1)
        | none => (Except.error noKeyMsg, env1)
      else (Except.error noKeyMsg, env1)
  else (extractTimeRange encryptedData timeRange, env)

/-! ## crema-client.js — period resolution (`_loadCacheFile`, lines 306-412) -/

/-- The fixed fallback table (crema-client.js lines 367-377): narrower
periods fall back to broader ones, in the listed order. -/
def fallbackMap (timeRange : String) : List String :=
  if timeRange = "today" then ["this_week", "this_month", "this_year"]
  else if timeRange = "this_week" then ["this_month", "this_year"]
  else if timeRange = "last_week" then ["this_month", "this_year", "last_month"]
  else if timeRange = "this_month" then ["this_quarter", "this_year"]
  else if timeRange = "last_month" then ["this_quarter", "this_year", "last_quarter", "last_year"]
  else if timeRange = "this_quarter" then ["this_year"]
  else if timeRange = "last_quarter" then ["this_year", "last_year"]
  else if timeRange = "last_year" then ["this_year", "all_time"]
  else if timeRange = "all_time" then ["this_year"]
  else []

/-- `allData.metrics?.[p]` restricted to a truthy result: the code's notion
of a period being usable (`if (!timeRangeData)` treats a falsy record as
absent and triggers the fallback). -/
def present (allData : JsonValue) (p : String) : Option JsonValue :=
  match jsGetOpt allData "metrics" with
  | some m =>
    match jsGetOpt m p with
    | some r => if r.isTruthy then some r else none
    | none => none
  | none => none

/-- The fallback loop (crema-client.js lines 379-386): first present
(truthy) period record in the chain. -/
def firstPresentRec (allData : JsonValue) : List String → Option JsonValue
  | [] => none
  | p :: ps =>
    match present allData p with
    | some r => some r
    | none => firstPresentRec allData ps

/-- The message of the `_loadCacheFile` period-not-found error
(crema-client.js line 395). -/
def noFallbackMsg (timeRange : String) : String :=
  "Time range '" ++ timeRange ++ "' not found in cache file and no fallback available"

/-- Lines 360-397 of crema-client.js: resolve the period record — the exact
period if present, else the first present entry of the fallback chain, else
`this_year`, else the period-not-found error. -/
def resolvePeriodRecord (allData : JsonValue) (timeRange : String) :
    Except String JsonValue :=
  match present allData timeRange with
  | some r => Except.ok r
  | none =>
    match firstPresentRec allData (fallbackMap timeRange) with
    | some r => Except.ok r
    | none =>
      match present allData "this_year" with
      | some r => Except.ok r
      | none => Except.error (noFallbackMsg timeRange)

/-- The record `_loadCacheFile` returns (crema-client.js lines 400-411),
built from the consolidated document and the resolved period record.
Property reads that would be `undefined` are modelled as `null` (see
`jsGetD`). -/
def buildRecord (allData : JsonValue) (timeRange : String) (rec : JsonValue) : JsonValue :=
  .obj [
    ("tenant_id", jsGetD allData "tenant_id" .null),
    ("time_range", .str timeRange),
    ("business_type", jsGetD allData "business_type" .null),
    ("date_range", jsGetD rec "date_range" .null),
    ("timestamp", jsGetD rec "timestamp" .null),
    ("cached_at", jsGetD allData "cached_at" .null),
    ("cache_version", jsGetD allData "cache_version" .null),
    ("metrics", jsGetD rec "metrics" .null),
    ("source_targets", jsGetD rec "source_targets" .null),
    ("all_metrics_data", jsGetD rec "all_metrics_data" .null)
  ]

/-! ## crema-client.js — the in-memory cache (`_getMetricsFromCache`, lines 45-91) -/

/-- An in-memory cache entry (`{ data, timestamp }`, crema-client.js
lines 85-88). -/
structure CacheEntry where
  data : JsonValue
  timestamp : Int

/-- `this._cache.get(k)` on the `Map` modelled as an association list. -/
def cacheGet (m : List (String × CacheEntry)) (k : String) : Option CacheEntry :=
  (m.find? (fun p => p.1 = k)).map (fun p => p.2)

/-- `this._cache.set(k, v)`: a `Map` replaces an existing key in place and
appends a new one. -/
def cacheSet (m : List (String × CacheEntry)) (k : String) (v : CacheEntry) :
    List (String × CacheEntry) :=
  if m.any (fun p => p.1 = k) then
    m.map (fun p => if p.1 = k then (k, v) else p)
  else m ++ [(k, v)]

/-- `this._cache.delete(k)`. -/
def cacheDelete (m : List (String × CacheEntry)) (k : String) :
    List (String × CacheEntry) :=
  m.filter (fun p => p.1 ≠ k)

/-- A network request issued by `_getMetricsFromCache`: the `HEAD`
revalidation request against the cache file (line 54) or the full
snapshot `GET` of `_loadCacheFile` (line 350). -/
inductive FetchEffect where
  | head
  | load

/-- The miss path of `_getMetricsFromCache` (lines 78-90) together with
`_loadCacheFile`'s period resolution: `loadRes` is the outcome of fetching
and parsing the snapshot (`Except.error` for a non-ok response or parse
failure).  The resolved record is stored under `"metrics_" ++ timeRange`
(the requested period) stamped `now`, and its `metrics` property is
returned; a record with a falsy `metrics` property is rejected. -/
def loadAndStore (cache : List (String × CacheEntry)) (timeRange : String)
    (now : Int) (loadRes : Except String JsonValue) :
    Except String JsonValue × List (String × CacheEntry) :=
  match loadRes with
  | Except.error e => (Except.error e, cache)
  | Except.ok allData =>
    match resolvePeriodRecord allData timeRange with
    | Except.error e => (Except.error e, cache)
    | Except.ok r =>
      let cacheData := buildRecord allData timeRange r
      if (jsGetD cacheData "metrics" .null).isTruthy then
        (Except.ok (jsGetD cacheData "metrics" .null),
         cacheSet cache ("metrics_" ++ timeRange) ⟨cacheData, now⟩)
      else
        (Except.error ("Cache file missing or invalid for time range: " ++ timeRange), cache)

/-- The result `getMetrics` computes on a cache miss, starting from an
empty in-memory cache (used to state period-fallback claims at the
`getMetrics` level). -/
def cacheMissResult (allData : JsonValue) (timeRange : String) :
    Except String JsonValue :=
  (loadAndStore [] timeRange 0 (Except.ok allData)).1

/-- `_getMetricsFromCache(timeRange)` (crema-client.js lines 45-91).
Inputs beyond the in-memory cache: `now` (`Date.now()`), `ttl`
(`this.cacheTTL`), `headRes` — the outcome of the `HEAD` revalidation
request (`Except.error ()` if the request rejects, `Except.ok none` if it
carries no usable `Last-Modified`, `Except.ok (some t)` for last-modified
time `t`) — and `loadRes`, the outcome a snapshot fetch would have.
Returns the result, the new in-memory cache, and the list of network
requests issued.  When an entry exists the `HEAD` request is always issued;
if the file is newer the entry is discarded; a surviving entry younger than
the TTL is returned without any snapshot fetch. -/
def getMetricsFromCache (cache : List (String × CacheEntry)) (timeRange : String)
    (now : Int) (ttl : Int) (headRes : Except Unit (Option Int))
    (loadRes : Except String JsonValue) :
    Except String JsonValue × List (String × CacheEntry) × List FetchEffect :=
  let cacheKey := "metrics_" ++ timeRange
  match cacheGet cache cacheKey with
  | some cached =>
    let cache1 :=
      match headRes with
      | Except.ok (some fileTime) =>
        if fileTime > cached.timestamp then cacheDelete cache cacheKey else cache
      | _ => cache
    match cacheGet cache1 cacheKey with
    | some cached1 =>
      if now - cached1.timestamp < ttl then
        (Except.ok (jsGetD cached1.data "metrics" .null), cache1, [FetchEffect.head])
      else
        match loadAndStore cache1 timeRange now loadRes with
        | (r, cache2) => (r, cache2, [FetchEffect.head, FetchEffect.load])
    | none =>
      match loadAndStore cache1 timeRange now loadRes with
      | (r, cache2) => (r, cache2, [FetchEffect.head, FetchEffect.load])
  | none =>
    match loadAndStore cache timeRange now loadRes with
    | (r, cache2) => (r, cache2, [FetchEffect.load])

/-! ## crema-client.js — path resolution

Two resolvers exist: `_loadCacheFile` (lines 309-346) and
`_getCacheFilePath` (lines 93-126).  Both take the configured cache
directory (`this.cacheDir`) and the current page path
(`window.location.pathname`); the browser branch (`typeof window !==
'undefined'`) is embedded.  The regular expressions are modelled as
character-list scans with JavaScript's leftmost-match semantics. -/

/-- The literal `"/tenants/"` as a character list. -/
def tenantsLit : List Char := "/tenants/".data

/-- The literal `"/app"` as a character list. -/
def appLit : List Char := "/app".data

/-- One attempt of `/(\/tenants\/[^/]+\/app)(?:\/|$)/` at the start of the
list: `"/tenants/"`, a non-empty segment without `/`, `"/app"`, then end of
input or `/`.  Returns the capture group. -/
def appMatchAt (cs : List Char) : Option (List Char) :=
  if isPrefixL tenantsLit cs then
    let t := cs.drop tenantsLit.length
    let seg := t.takeWhile (fun c => c ≠ '/')
    if seg.isEmpty then none
    else
      let t2 := t.drop seg.length
      if isPrefixL appLit t2 then
        match t2.drop appLit.length with
        | [] => some (tenantsLit ++ seg ++ appLit)
        | '/' :: _ => some (tenantsLit ++ seg ++ appLit)
        | _ => none
      else none
  else none

/-- Leftmost match of the tenant-app-root pattern
`/(\/tenants\/[^/]+\/app)(?:\/|$)/` (crema-client.js lines 113 and 320). -/
def appMatchL : List Char → Option (List Char)
  | [] => none
  | c :: t =>
    match appMatchAt (c :: t) with
    | some cap => some cap
    | none => appMatchL t

/-- One attempt of `/(\/maps)(?:\/|$)/` at the start of the list. -/
def mapsMatchAt (cs : List Char) : Bool :=
  isPrefixL "/maps".data cs &&
    (match cs.drop 5 with
     | [] => true
     | '/' :: _ => true
     | _ => false)

/-- Leftmost match of the production-root pattern `/(\/maps)(?:\/|$)/`
(crema-client.js line 331); the capture is always `"/maps"`. -/
def mapsMatchL : List Char → Bool
  | [] => false
  | c :: t => mapsMatchAt (c :: t) || mapsMatchL t

/-- `basePath.replace(/\/[^/]*$/, '')` (crema-client.js line 329): drop
everything from the last `/` (inclusive) to the end; a string without `/`
is unchanged. -/
def stripLastSegL (cs : List Char) : List Char :=
  let r := cs.reverse
  let dropped := r.dropWhile (fun c => c ≠ '/')
  match dropped with
  | '/' :: t => t.reverse
  | _ => cs

/-- The final segment matches `[^/]+\.html?` entirely: it ends in `.htm`
or `.html` with a non-empty base name. -/
def segMatchesHtml (seg : List Char) : Bool :=
  (isPrefixL ".html".data.reverse seg.reverse && seg.length ≥ 6) ||
  (isPrefixL ".htm".data.reverse seg.reverse && seg.length ≥ 5)

/-- `basePath.replace(/\/[^/]+\.html?$/, '')` (crema-client.js line 101,
decrypt.js line 483): strip a trailing `/name.htm(l)` file name, if any. -/
def stripHtmlSuffixL (cs : List Char) : List Char :=
  let r := cs.reverse
  let seg := r.takeWhile (fun c => c ≠ '/')
  match r.drop seg.length with
  | '/' :: rest =>
    if segMatchesHtml seg.reverse then rest.reverse else cs
  | _ => cs

/-- `basePath.replace(/\/+$/, '')` (crema-client.js line 338): strip
trailing slashes. -/
def stripTrailingSlashesL (cs : List Char) : List Char :=
  (cs.reverse.dropWhile (fun c => c = '/')).reverse

/-- `cacheFile.replace(/\/+/g, '/')` (crema-client.js line 342): collapse
every run of slashes to a single slash. -/
def collapseSlashesL : List Char → List Char
  | [] => []
  | c :: t =>
    let r := collapseSlashesL t
    if c = '/' then
      match r with
      | '/' :: _ => r
      | _ => c :: r
    else c :: r

/-- `basePath.startsWith('/maps')` (crema-client.js line 104). -/
def startsWithMaps (cs : List Char) : Bool :=
  isPrefixL "/maps".data cs

/-- `basePath.includes('/tenants/maps/app')` (crema-client.js line 108). -/
def includesTenantsMapsApp (cs : List Char) : Bool :=
  isInfixL "/tenants/maps/app".data cs

/-- `basePath.replace(/\/tenants\/maps\/app.*$/, '/tenants/maps/app')`
(crema-client.js line 109): keep the prefix up to the first occurrence of
the literal and the literal itself, dropping the rest. -/
def replaceFromTenantsMapsApp : List Char → List Char
  | [] => []
  | c :: t =>
    if isPrefixL "/tenants/maps/app".data (c :: t) then "/tenants/maps/app".data
    else c :: replaceFromTenantsMapsApp t

/-- One attempt of `/\/([^/]+)(?:\/|$)/` at the start of the list; captures
the first path segment. -/
def tenantMatchAt (cs : List Char) : Option (List Char) :=
  match cs with
  | '/' :: t =>
    let seg := t.takeWhile (fun c => c ≠ '/')
    if seg.isEmpty then none else some seg
  | _ => none

/-- Leftmost match of `/\/([^/]+)(?:\/|$)/` (crema-client.js line 117).
The boundary `(?:\/|$)` holds automatically at the end of the maximal
segment. -/
def tenantMatchL : List Char → Option (List Char)
  | [] => none
  | c :: t =>
    match tenantMatchAt (c :: t) with
    | some seg => some seg
    | none => tenantMatchL t

/-- `_loadCacheFile`'s cache-file path construction (crema-client.js lines
309-342), in the browser branch: an absolute `cacheDir` is used verbatim;
otherwise the tenant-app-root pattern is tried on the original page path
first, then the page path is stripped of its last segment and matched
against the production-root pattern, and otherwise the stripped path itself
is kept as the base; trailing slashes are removed (an empty base becomes
`/`), the path is assembled and runs of slashes are collapsed. -/
def loadCacheFilePath (cacheDir : String) (pathname : String) : String :=
  if isPrefixL ['/'] cacheDir.data then cacheDir ++ "/dashboard_data.json"
  else
    let currentPath := pathname.data
    let basePath :=
      match appMatchL currentPath with
      | some cap => cap
      | none =>
        let b := stripLastSegL currentPath
        if mapsMatchL b then "/maps".data else b
    let basePath1 :=
      match stripTrailingSlashesL basePath with
      | [] => ['/']
      | bs => bs
    String.mk (collapseSlashesL (basePath1 ++ ['/'] ++ cacheDir.data ++ "/dashboard_data.json".data))

/-- `_getCacheFilePath`'s path construction (crema-client.js lines 93-126),
in the browser branch: an absolute `cacheDir` is used verbatim; otherwise a
trailing `.htm(l)` file name is stripped, then in order: a `/maps` prefix
anchors to `/maps`; a path containing `/tenants/maps/app` is truncated just
after it; the tenant-app-root pattern anchors to its capture; else the
first path segment `s` guesses `/s/app`, defaulting to `/maps` when there
is none. -/
def getCacheFilePathFn (cacheDir : String) (pathname : String) : String :=
  if isPrefixL ['/'] cacheDir.data then cacheDir ++ "/dashboard_data.json"
  else
    let b := stripHtmlSuffixL pathname.data
    let basePath :=
      if startsWithMaps b then "/maps".data
      else if includesTenantsMapsApp b then replaceFromTenantsMapsApp b
      else
        match appMatchL b with
        | some cap => cap
        | none =>
          match tenantMatchL b with
          | some seg => ['/'] ++ seg ++ "/app".data
          | none => "/maps".data
    String.mk basePath ++ "/" ++ cacheDir ++ "/dashboard_data.json"

/-- Spec-side, declarative form of "the path contains the tenant app root
pattern": it decomposes as `pre ++ "/tenants/" ++ seg ++ "/app" ++ rest`
with a non-empty slash-free tenant segment and a path boundary after
`/app`. -/
def HasTenantPattern (cs : List Char) : Prop :=
  ∃ pre seg rest, cs = pre ++ tenantsLit ++ seg ++ appLit ++ rest ∧
    seg ≠ [] ∧ (∀ c ∈ seg, c ≠ '/') ∧
    (rest = [] ∨ ∃ r, rest = '/' :: r)

/-! ## crema-client.js — `search` and `getEntityData` (lines 269-300) -/

/-- The observable outcome of a JavaScript async function call:
a returned value (`ret none` models returning `undefined`) or a thrown
error. -/
inductive SearchOutcome where
  | ret (v : Option JsonValue)
  | thrown (e : String)

/-- `data.results || data.data?.results || []` (crema-client.js line 294). -/
def extractResults (data : JsonValue) : JsonValue :=
  match jsGetOpt data "results" with
  | some r =>
    if r.isTruthy then r
    else extractResultsFallback data
  | none => extractResultsFallback data
where
  /-- The `data.data?.results || []` tail of the chain. -/
  extractResultsFallback (data : JsonValue) : JsonValue :=
    match jsGetOpt data "data" with
    | some d =>
      match jsGetOpt d "results" with
      | some r => if r.isTruthy then r else .arr []
      | none => .arr []
    | none => .arr []

/-- The outcome of the `fetch` in `search`: `Except.error e` when the fetch
rejects (network failure), otherwise the response's `ok` flag together with
the outcome of `response.json()`. -/
def SearchFetchOutcome : Type := Except String (Bool × Except String JsonValue)

/-- `search(query, options)` (crema-client.js lines 280-300): a rejected
fetch (or a failing `response.json()`) is caught, logged and rethrown; an
ok response returns the extracted results; a non-ok response falls through
the `if` and out of the `try`, so the function returns `undefined`.
A body that parses to `null` would make `data.results` throw a `TypeError`,
which the `catch` also rethrows. -/
def search (fetchRes : SearchFetchOutcome) : SearchOutcome :=
  match fetchRes with
  | Except.error e => SearchOutcome.thrown e
  | Except.ok (ok, body) =>
    if ok then
      match body with
      | Except.error e => SearchOutcome.thrown e
      | Except.ok JsonValue.null => SearchOutcome.thrown "TypeError"
      | Except.ok data => SearchOutcome.ret (some (extractResults data))
    else SearchOutcome.ret none

/-- The filter options accepted by `getEntityData` (crema-client.js lines
469-487). -/
structure EntityFilters where
  dateRange : Option (String × String)
  amountMin : Option Int
  amountMax : Option Int

/-- `_buildEntityQuery(entityType, filters)` (crema-client.js lines
469-487); each filter clause is appended only when the filter value is
truthy (so an amount of `0` is skipped). -/
def buildEntityQuery (entityType : String) (filters : EntityFilters) : String :=
  let q0 := "data_type=" ++ entityType
  let q1 := match filters.dateRange with
    | some (s, e) => q0 ++ " AND date >= " ++ s ++ " AND date <= " ++ e
    | none => q0
  let q2 := match filters.amountMin with
    | some n => if n ≠ 0 then q1 ++ " AND amount >= " ++ toString n else q1
    | none => q1
  match filters.amountMax with
  | some n => if n ≠ 0 then q2 ++ " AND amount <= " ++ toString n else q2
  | none => q2

/-- `search` as called through the client, with the fetch outcome given as
a function of the query string. -/
def searchOp (fetchOf : String → SearchFetchOutcome) (query : String) : SearchOutcome :=
  search (fetchOf query)

/-- `getEntityData(entityType, filters)` (crema-client.js lines 269-272):
builds the entity query and delegates to `search`. -/
def getEntityDataOp (fetchOf : String → SearchFetchOutcome) (entityType : String)
    (filters : EntityFilters) : SearchOutcome :=
  searchOp fetchOf (buildEntityQuery entityType filters)

/-! ## Spec-side definitions for the fallback and failure claims -/

/-- The full search order of the cache-mode period resolution: the exact
period, then its fallback chain, then the broadest period `this_year`. -/
def searchOrder (timeRange : String) : List String :=
  timeRange :: (fallbackMap timeRange ++ ["this_year"])

/-- The first period of a list that is present (with a truthy record) in
the snapshot's metrics mapping. -/
def firstPresent (allData : JsonValue) : List String → Option String
  | [] => none
  | p :: ps => if (present allData p).isSome then some p else firstPresent allData ps

/-- Every period of the search order is absent from the snapshot. -/
def allAbsent (allData : JsonValue) (timeRange : String) : Bool :=
  (searchOrder timeRange).all (fun p => (present allData p).isNone)

/-- The data-model invariant of the spec (§3): every period identifier
present in the `metrics` mapping resolves to a record with a truthy
`metrics` field. -/
def metricsInvariant (allData : JsonValue) : Bool :=
  match jsGetOpt allData "metrics" with
  | some (.obj fs) => fs.all (fun p => !p.2.isTruthy || (jsGetD p.2 "metrics" .null).isTruthy)
  | _ => true

/-! ## Concrete example inputs used by witnesses and counterexamples -/

/-- A decryption oracle under which every ciphertext decrypts to the
plaintext string `"plain"`. -/
def exDec : String → Option JsonValue := fun _ => some (JsonValue.str "plain")

/-- A decryption oracle under which every ciphertext fails (wrong secret or
corrupted data). -/
def exDecFail : String → Option JsonValue := fun _ => none

/-- An encrypted document whose only envelope sits under the top-level key
`"x"`, which is not one of the four keys the walk is applied to. -/
def exDocC1 : JsonValue :=
  .obj [("_encryption", .obj [("salt", .str "abc")]),
        ("x", .obj [("_encrypted", .bool true), ("_data", .str "ct")])]

/-- An encrypted document with one envelope nested under `metrics`. -/
def exW1doc : JsonValue :=
  .obj [("_encryption", .obj [("salt", .str "s")]),
        ("metrics", .obj [("top_donors", .obj [("_encrypted", .bool true), ("_data", .str "ct")])]),
        ("other", .num 7)]

/-- The decryption of `exW1doc` under `exDec`. -/
def exW1out : JsonValue :=
  .obj [("_encryption", .obj [("salt", .str "s")]),
        ("metrics", .obj [("top_donors", .str "plain")]),
        ("other", .num 7)]

/-- An encrypted document with a single envelope under `metrics`. -/
def exDocC3 : JsonValue :=
  .obj [("_encryption", .obj [("salt", .str "s")]),
        ("metrics", .obj [("top_donors", .obj [("_encrypted", .bool true), ("_data", .str "zz")])])]

/-- The snapshot of the spec's fallback example: only `this_month` is
present. -/
def exSnapC2 : JsonValue :=
  .obj [("metrics", .obj [("this_month", .obj [("metrics", .obj [("revenue", .num 100)])])])]

/-- The `this_month` period record of `exSnapC2`. -/
def exThisMonthRec : JsonValue :=
  .obj [("metrics", .obj [("revenue", .num 100)])]

/-- A snapshot whose only period is the custom identifier `m1`, so that a
request for `today` exhausts the whole fallback chain. -/
def exSnapC6 : JsonValue :=
  .obj [("metrics", .obj [("m1", .obj [("metrics", .obj [("x", .num 1)])])])]

/-- A snapshot carrying only `this_year`. -/
def exSnapC7 : JsonValue :=
  .obj [("metrics", .obj [("this_year", .obj [("metrics", .obj [("revenue", .num 5)])])])]

/-- First `getMetrics` call on an empty in-memory cache: a miss that
fetches the snapshot and stores the resolved record. -/
def exC7call1 : Except String JsonValue × List (String × CacheEntry) × List FetchEffect :=
  getMetricsFromCache [] "this_year" 100 3600000 (Except.error ()) (Except.ok exSnapC7)

/-- Second `getMetrics` call for the same period, 100 ms later, with the
remote file older than the entry (last modified at 50): a cache hit. -/
def exC7call2 : Except String JsonValue × List (String × CacheEntry) × List FetchEffect :=
  getMetricsFromCache exC7call1.2.1 "this_year" 200 3600000 (Except.ok (some 50))
    (Except.error "snapshot fetch would fail")

/-- A storage environment with empty stores and a cancelled dialog. -/
def exEnvEmpty : WebEnv := ⟨[], [], none⟩

/-- A password-indexed oracle family for the page-level load pipeline. -/
def exDecFor : String → String → Option JsonValue := fun _ _ => some JsonValue.null

/-- An encrypted document (truthy `_encryption` block). -/
def exEncDoc : JsonValue := .obj [("_encryption", .obj [("salt", .str "s")])]

/-- A fetch whose response completes with a non-success HTTP status. -/
def exFetchC10 : String → SearchFetchOutcome :=
  fun _ => Except.ok (false, Except.ok (JsonValue.obj []))

/-- The walk reaching a failing envelope through the top-level property `k`
of a field list (used to characterise `decryptSensitiveFields` failures). -/
def fieldFails (dec : String → Option JsonValue) (fs : List (String × JsonValue))
    (k : String) : Bool :=
  match getField fs k with
  | some v => v.isTruthy && walkFails dec v
  | none => false

/-! # Theorems

General-purpose lemmas first, then one theorem per claim (with its witness
or counterexample where required). -/

theorem getField_cons (k' : String) (v : JsonValue) (fs : List (String × JsonValue))
    (k : String) :
    getField ((k', v) :: fs) k = if k' = k then some v else getField fs k := by
  unfold getField
  by_cases h : k' = k
  · rw [List.find?_cons_of_pos _ (by simpa using h), if_pos h]
    rfl
  · rw [List.find?_cons_of_neg _ (by simpa using h), if_neg h]

theorem getField_setField_ne (fs : List (String × JsonValue)) (k : String)
    (v : JsonValue) (k' : String) (h : k' ≠ k) :
    getField (setField fs k v) k' = getField fs k' := by
  induction fs with
  | nil => rfl
  | cons p fs ih =>
    obtain ⟨a, b⟩ := p
    by_cases ha : a = k
    · subst ha
      simp only [setField, List.map_cons, if_pos rfl]
      rw [getField_cons, getField_cons, if_neg (fun hh => h hh.symm),
        if_neg (fun hh => h hh.symm)]
      exact ih
    · simp only [setField, List.map_cons, if_neg ha]
      rw [getField_cons, getField_cons]
      by_cases hk' : a = k'
      · rw [if_pos hk', if_pos hk']
      · rw [if_neg hk', if_neg hk']
        exact ih

theorem getField_setField_self (fs : List (String × JsonValue)) (k : String)
    (v : JsonValue) (h : (getField fs k).isSome = true) :
    getField (setField fs k v) k = some v := by
  induction fs with
  | nil => simp [getField] at h
  | cons p fs ih =>
    obtain ⟨a, b⟩ := p
    by_cases ha : a = k
    · simp only [setField, List.map_cons, if_pos ha]
      rw [getField_cons, if_pos rfl]
    · simp only [setField, List.map_cons, if_neg ha]
      rw [getField_cons, if_neg ha]
      rw [getField_cons, if_neg ha] at h
      exact ih h

theorem falsy_no_envelope (v : JsonValue) (h : v.isTruthy = false) :
    containsEnvelope v = false := by
  cases v <;> simp_all [JsonValue.isTruthy, containsEnvelope]

theorem decryptFields_keys (dec : String → Option JsonValue) :
    ∀ (fs fs2 : List (String × JsonValue)), decryptFields dec fs = Except.ok fs2 →
    ∀ k, (k = "_encryption" ∨ k = "_encrypted" ∨ k = "_data") → getField fs2 k = none := by
  intro fs
  induction fs with
  | nil =>
    intro fs2 h k _
    simp only [decryptFields] at h
    cases h
    rfl
  | cons p fs ih =>
    obtain ⟨a, b⟩ := p
    intro fs2 h k hk
    simp only [decryptFields] at h
    split at h
    · exact ih fs2 h k hk
    · next ha =>
      split at h
      · exact absurd h (by simp)
      · next w hw =>
        split at h
        · exact absurd h (by simp)
        · next fs3 hfs =>
          cases h
          rw [getField_cons, if_neg (fun he => ha (by rw [he]; exact hk))]
          exact ih fs3 hfs k hk

mutual

theorem walk_envFree (dec : String → Option JsonValue)
    (hdec : ∀ s v, dec s = some v → containsEnvelope v = false) :
    (v : JsonValue) → (w : JsonValue) → decryptDataStructure dec v = Except.ok w →
    containsEnvelope w = false
  | .null, w, h => by
    simp only [decryptDataStructure] at h
    cases h
    rfl
  | .bool b, w, h => by
    simp only [decryptDataStructure] at h
    cases h
    rfl
  | .num n, w, h => by
    simp only [decryptDataStructure] at h
    cases h
    rfl
  | .str s, w, h => by
    simp only [decryptDataStructure] at h
    cases h
    rfl
  | .arr xs, w, h => by
    simp only [decryptDataStructure] at h
    split at h
    · next ys hys =>
      cases h
      simp only [containsEnvelope]
      exact walkL_envFree dec hdec xs ys hys
    · exact absurd h (by simp)
  | .obj fs, w, h => by
    simp only [decryptDataStructure, decryptValue] at h
    split at h
    · next d hev =>
      split at h
      · next u hd =>
        cases h
        exact hdec _ _ hd
      · exact absurd h (by simp)
    · next hev =>
      split at h
      · next fs2 hfs =>
        cases h
        have h1 : containsEnvelopeF fs2 = false := walkF_envFree dec hdec fs fs2 hfs
        have h2 : getField fs2 "_encrypted" = none :=
          decryptFields_keys dec fs fs2 hfs _ (Or.inr (Or.inl rfl))
        simp [containsEnvelope, isEnvelope, envelopeData, hasTruthyField, jsGetOpt, h2, h1]
      · exact absurd h (by simp)

theorem walkL_envFree (dec : String → Option JsonValue)
    (hdec : ∀ s v, dec s = some v → containsEnvelope v = false) :
    (xs : List JsonValue) → (ys : List JsonValue) → decryptList dec xs = Except.ok ys →
    containsEnvelopeL ys = false
  | [], ys, h => by
    simp only [decryptList] at h
    cases h
    rfl
  | x :: xs, ys, h => by
    simp only [decryptList] at h
    split at h
    · exact absurd h (by simp)
    · next y hy =>
      split at h
      · exact absurd h (by simp)
      · next ys2 hys =>
        cases h
        simp only [containsEnvelopeL, Bool.or_eq_false_iff]
        exact ⟨walk_envFree dec hdec x y hy, walkL_envFree dec hdec xs ys2 hys⟩

theorem walkF_envFree (dec : String → Option JsonValue)
    (hdec : ∀ s v, dec s = some v → containsEnvelope v = false) :
    (fs fs2 : List (String × JsonValue)) → decryptFields dec fs = Except.ok fs2 →
    containsEnvelopeF fs2 = false
  | [], fs2, h => by
    simp only [decryptFields] at h
    cases h
    rfl
  | (k, v) :: fs, fs2, h => by
    simp only [decryptFields] at h
    split at h
    · exact walkF_envFree dec hdec fs fs2 h
    · split at h
      · exact absurd h (by simp)
      · next w hw =>
        split at h
        · exact absurd h (by simp)
        · next fs3 hfs =>
          cases h
          simp only [containsEnvelopeF, Bool.or_eq_false_iff]
          exact ⟨walk_envFree dec hdec v w hw, walkF_envFree dec hdec fs fs3 hfs⟩

end

theorem metaFreeF_getField_none (fs : List (String × JsonValue))
    (h : metaFreeF fs = true) (k : String)
    (hk : k = "_encryption" ∨ k = "_encrypted" ∨ k = "_data") :
    getField fs k = none := by
  induction fs with
  | nil => rfl
  | cons p fs ih =>
    obtain ⟨a, b⟩ := p
    have h3 : (decide ¬(a = "_encryption" ∨ a = "_encrypted" ∨ a = "_data")
        && (metaFree b && metaFreeF fs)) = true := by
      simpa [metaFreeF, Bool.and_assoc] using h
    simp only [Bool.and_eq_true, decide_eq_true_eq] at h3
    rw [getField_cons, if_neg (fun he => h3.1 (by rw [he]; exact hk))]
    exact ih h3.2.2

mutual

theorem walk_failSpec (dec : String → Option JsonValue) :
    (v : JsonValue) →
    (∀ m, decryptDataStructure dec v = Except.error m →
       m = decryptFailMsg ∧ walkFails dec v = true) ∧
    (∀ w, decryptDataStructure dec v = Except.ok w → walkFails dec v = false)
  | .null =>
    ⟨fun m h => by simp only [decryptDataStructure] at h; exact absurd h (by simp),
     fun w _ => rfl⟩
  | .bool b =>
    ⟨fun m h => by simp only [decryptDataStructure] at h; exact absurd h (by simp),
     fun w _ => rfl⟩
  | .num n =>
    ⟨fun m h => by simp only [decryptDataStructure] at h; exact absurd h (by simp),
     fun w _ => rfl⟩
  | .str s =>
    ⟨fun m h => by simp only [decryptDataStructure] at h; exact absurd h (by simp),
     fun w _ => rfl⟩
  | .arr xs =>
    ⟨fun m h => by
      simp only [decryptDataStructure] at h
      split at h
      · exact absurd h (by simp)
      · next e2 he =>
        cases h
        refine ⟨((walkL_failSpec dec xs).1 m he).1, ?_⟩
        simp only [walkFails]
        exact ((walkL_failSpec dec xs).1 m he).2,
     fun w h => by
      simp only [decryptDataStructure] at h
      split at h
      · next ys hys =>
        simp only [walkFails]
        exact (walkL_failSpec dec xs).2 ys hys
      · exact absurd h (by simp)⟩
  | .obj fs =>
    ⟨fun m h => by
      simp only [decryptDataStructure, decryptValue] at h
      split at h
      · next d hev =>
        split at h
        · exact absurd h (by simp)
        · next hd =>
          cases h
          refine ⟨rfl, ?_⟩
          simp only [walkFails, hev, hd, Option.isNone_none]
      · next hev =>
        split at h
        · exact absurd h (by simp)
        · next e2 he =>
          cases h
          refine ⟨((walkF_failSpec dec fs).1 m he).1, ?_⟩
          simp only [walkFails, hev]
          exact ((walkF_failSpec dec fs).1 m he).2,
     fun w h => by
      simp only [decryptDataStructure, decryptValue] at h
      split at h
      · next d hev =>
        split at h
        · next u hd =>
          simp only [walkFails, hev, hd, Option.isNone_some]
        · exact absurd h (by simp)
      · next hev =>
        split at h
        · next fs2 hfs =>
          simp only [walkFails, hev]
          exact (walkF_failSpec dec fs).2 fs2 hfs
        · exact absurd h (by simp)⟩

theorem walkL_failSpec (dec : String → Option JsonValue) :
    (xs : List JsonValue) →
    (∀ m, decryptList dec xs = Except.error m →
       m = decryptFailMsg ∧ walkFailsL dec xs = true) ∧
    (∀ ys, decryptList dec xs = Except.ok ys → walkFailsL dec xs = false)
  | [] =>
    ⟨fun m h => by simp only [decryptList] at h; exact absurd h (by simp),
     fun ys _ => rfl⟩
  | x :: xs =>
    ⟨fun m h => by
      simp only [decryptList] at h
      split at h
      · next e2 he =>
        cases h
        refine ⟨((walk_failSpec dec x).1 m he).1, ?_⟩
        simp only [walkFailsL, ((walk_failSpec dec x).1 m he).2, Bool.true_or]
      · next y hy =>
        split at h
        · next e2 he =>
          cases h
          refine ⟨((walkL_failSpec dec xs).1 m he).1, ?_⟩
          simp only [walkFailsL, ((walkL_failSpec dec xs).1 m he).2, Bool.or_true]
        · exact absurd h (by simp)
    , fun ys h => by
      simp only [decryptList] at h
      split at h
      · exact absurd h (by simp)
      · next y hy =>
        split at h
        · exact absurd h (by simp)
        · next ys2 hys =>
          simp only [walkFailsL, Bool.or_eq_false_iff]
          exact ⟨(walk_failSpec dec x).2 y hy, (walkL_failSpec dec xs).2 ys2 hys⟩⟩

theorem walkF_failSpec (dec : String → Option JsonValue) :
    (fs : List (String × JsonValue)) →
    (∀ m, decryptFields dec fs = Except.error m →
       m = decryptFailMsg ∧ walkFailsF dec fs = true) ∧
    (∀ fs2, decryptFields dec fs = Except.ok fs2 → walkFailsF dec fs = false)
  | [] =>
    ⟨fun m h => by simp only [decryptFields] at h; exact absurd h (by simp),
     fun fs2 _ => rfl⟩
  | (k, v) :: fs =>
    ⟨fun m h => by
      simp only [decryptFields] at h
      split at h
      · next hk =>
        refine ⟨((walkF_failSpec dec fs).1 m h).1, ?_⟩
        simp only [walkFailsF, if_pos hk, Bool.false_or]
        exact ((walkF_failSpec dec fs).1 m h).2
      · next hk =>
        split at h
        · next e2 he =>
          cases h
          refine ⟨((walk_failSpec dec v).1 m he).1, ?_⟩
          simp only [walkFailsF, if_neg hk, ((walk_failSpec dec v).1 m he).2, Bool.true_or]
        · next w hw =>
          split at h
          · next e2 he =>
            cases h
            refine ⟨((walkF_failSpec dec fs).1 m he).1, ?_⟩
            simp only [walkFailsF, ((walkF_failSpec dec fs).1 m he).2, Bool.or_true]
          · exact absurd h (by simp)
    , fun fs2 h => by
      simp only [decryptFields] at h
      split at h
      · next hk =>
        simp only [walkFailsF, if_pos hk, Bool.false_or]
        exact (walkF_failSpec dec fs).2 fs2 h
      · next hk =>
        split at h
        · exact absurd h (by simp)
        · next w hw =>
          split at h
          · exact absurd h (by simp)
          · next fs3 hfs =>
            simp only [walkFailsF, if_neg hk, Bool.or_eq_false_iff]
            exact ⟨(walk_failSpec dec v).2 w hw, (walkF_failSpec dec fs).2 fs3 hfs⟩⟩

end

mutual

theorem metaFree_walk_id (dec : String → Option JsonValue) :
    (v : JsonValue) → metaFree v = true → decryptDataStructure dec v = Except.ok v
  | .null, _ => rfl
  | .bool b, _ => rfl
  | .num n, _ => rfl
  | .str s, _ => rfl
  | .arr xs, h => by
    simp only [decryptDataStructure, metaFree_walkL_id dec xs (by simpa [metaFree] using h)]
  | .obj fs, h => by
    have hf : metaFreeF fs = true := by simpa [metaFree] using h
    have henc : getField fs "_encrypted" = none :=
      metaFreeF_getField_none fs hf _ (Or.inr (Or.inl rfl))
    have hev : envelopeData fs = none := by
      simp [envelopeData, hasTruthyField, jsGetOpt, henc]
    simp only [decryptDataStructure, hev, metaFree_walkF_id dec fs hf]

theorem metaFree_walkL_id (dec : String → Option JsonValue) :
    (xs : List JsonValue) → metaFreeL xs = true → decryptList dec xs = Except.ok xs
  | [], _ => rfl
  | x :: xs, h => by
    have h2 : metaFree x = true ∧ metaFreeL xs = true := by
      simpa [metaFreeL, Bool.and_eq_true] using h
    simp only [decryptList, metaFree_walk_id dec x h2.1, metaFree_walkL_id dec xs h2.2]

theorem metaFree_walkF_id (dec : String → Option JsonValue) :
    (fs : List (String × JsonValue)) → metaFreeF fs = true → decryptFields dec fs = Except.ok fs
  | [], _ => rfl
  | (k, v) :: fs, h => by
    have h3 : (decide ¬(k = "_encryption" ∨ k = "_encrypted" ∨ k = "_data")
        && (metaFree v && metaFreeF fs)) = true := by
      simpa [metaFreeF, Bool.and_assoc] using h
    simp only [Bool.and_eq_true, decide_eq_true_eq] at h3
    simp only [decryptFields, if_neg h3.1, metaFree_walk_id dec v h3.2.1,
      metaFree_walkF_id dec fs h3.2.2]

end

theorem decryptList_pointwise (dec : String → Option JsonValue) :
    ∀ (xs ys : List JsonValue), decryptList dec xs = Except.ok ys →
    ys.length = xs.length ∧ ∀ i (h1 : i < xs.length) (h2 : i < ys.length),
      decryptDataStructure dec (xs.get ⟨i, h1⟩) = Except.ok (ys.get ⟨i, h2⟩) := by
  intro xs
  induction xs with
  | nil =>
    intro ys h
    simp only [decryptList] at h
    cases h
    exact ⟨rfl, fun i h1 h2 => absurd h1 (by simp)⟩
  | cons x xs ih =>
    intro ys h
    simp only [decryptList] at h
    split at h
    · exact absurd h (by simp)
    · next y hy =>
      split at h
      · exact absurd h (by simp)
      · next ys2 hys =>
        cases h
        obtain ⟨hlen, hpt⟩ := ih ys2 hys
        refine ⟨by simp [hlen], ?_⟩
        intro i h1 h2
        cases i with
        | zero => simpa using hy
        | succ j =>
          have hj1 : j < xs.length := by simpa using h1
          have hj2 : j < ys2.length := by simpa using h2
          simpa using hpt j hj1 hj2

theorem updateIfTruthy_preserve (dec : String → Option JsonValue)
    (fs fs' : List (String × JsonValue)) (k : String)
    (h : updateIfTruthy dec fs k = Except.ok fs') (k' : String) (hk : k' ≠ k) :
    getField fs' k' = getField fs k' := by
  unfold updateIfTruthy at h
  split at h
  · next v hv =>
    split at h
    · split at h
      · next w hw =>
        cases h
        exact getField_setField_ne fs k w k' hk
      · exact absurd h (by simp)
    · cases h
      rfl
  · cases h
    rfl

theorem updateIfTruthy_envFree (dec : String → Option JsonValue)
    (hdec : ∀ s v, dec s = some v → containsEnvelope v = false)
    (fs fs' : List (String × JsonValue)) (k : String)
    (h : updateIfTruthy dec fs k = Except.ok fs') :
    ∀ v', getField fs' k = some v' → containsEnvelope v' = false := by
  intro v' hv'
  unfold updateIfTruthy at h
  split at h
  · next v hv =>
    split at h
    · next htr =>
      split at h
      · next w hw =>
        cases h
        have : getField (setField fs k w) k = some w :=
          getField_setField_self fs k w (by rw [hv]; rfl)
        rw [this] at hv'
        cases hv'
        exact walk_envFree dec hdec v _ hw
      · exact absurd h (by simp)
    · next htr =>
      cases h
      rw [hv] at hv'
      cases hv'
      exact falsy_no_envelope v' (by simpa using htr)
  · next hv =>
    cases h
    rw [hv] at hv'
    exact absurd hv' (by simp)

theorem updateIfTruthy_error (dec : String → Option JsonValue)
    (fs : List (String × JsonValue)) (k : String) (m : String)
    (h : updateIfTruthy dec fs k = Except.error m) :
    m = decryptFailMsg ∧ fieldFails dec fs k = true := by
  unfold updateIfTruthy at h
  split at h
  · next v hv =>
    split at h
    · next htr =>
      split at h
      · exact absurd h (by simp)
      · next e2 he =>
        cases h
        refine ⟨((walk_failSpec dec v).1 m he).1, ?_⟩
        unfold fieldFails
        rw [hv]
        simp [htr, ((walk_failSpec dec v).1 m he).2]
    · exact absurd h (by simp)
  · exact absurd h (by simp)

theorem updateIfTruthy_ok_noFail (dec : String → Option JsonValue)
    (fs fs' : List (String × JsonValue)) (k : String)
    (h : updateIfTruthy dec fs k = Except.ok fs') :
    fieldFails dec fs k = false := by
  unfold updateIfTruthy at h
  unfold fieldFails
  split at h
  · next v hv =>
    split at h
    · next htr =>
      split at h
      · next w hw =>
        simp [(walk_failSpec dec v).2 w hw]
      · exact absurd h (by simp)
    · next htr =>
      simp [by simpa using htr]
  · next hv =>
    rfl

theorem fieldFails_congr (dec : String → Option JsonValue)
    (fs fs' : List (String × JsonValue)) (k : String)
    (h : getField fs' k = getField fs k) :
    fieldFails dec fs' k = fieldFails dec fs k := by
  unfold fieldFails
  rw [h]

theorem sensitiveFails_obj (dec : String → Option JsonValue)
    (fs : List (String × JsonValue)) :
    sensitiveFails dec (JsonValue.obj fs) =
      (fieldFails dec fs "metrics" || (fieldFails dec fs "crema" ||
       (fieldFails dec fs "source_targets" || fieldFails dec fs "all_metrics_data"))) := by
  simp only [sensitiveFails, walkedKeys, List.any_cons, List.any_nil, Bool.or_false]
  rfl

/-- C1 (amended): for every encrypted snapshot document and a decryption
oracle whose plaintexts are envelope-free, a successful
`decryptSensitiveFields` eliminates every encrypted envelope, at any
nesting level, under the four walked top-level keys `metrics`, `crema`,
`source_targets` and `all_metrics_data`; every other top-level property is
returned exactly as it was in the input (so an envelope elsewhere is left
encrypted — see the counterexample). -/
theorem C1_amended (dec : String → Option JsonValue) (data out : JsonValue)
    (hdec : ∀ s v, dec s = some v → containsEnvelope v = false)
    (henc : hasTruthyField data "_encryption" = true)
    (hok : decryptSensitiveFields dec data = Except.ok out) :
    (∀ k, k ∈ walkedKeys → ∀ v, jsGetOpt out k = some v → containsEnvelope v = false) ∧
    (∀ k, k ∉ walkedKeys → jsGetOpt out k = jsGetOpt data k) := by
  cases data with
  | null => simp [hasTruthyField, jsGetOpt] at henc
  | bool b => simp [hasTruthyField, jsGetOpt] at henc
  | num n => simp [hasTruthyField, jsGetOpt] at henc
  | str s => simp [hasTruthyField, jsGetOpt] at henc
  | arr xs => simp [hasTruthyField, jsGetOpt] at henc
  | obj fs =>
    simp only [decryptSensitiveFields] at hok
    rw [if_pos henc] at hok
    split at hok
    · exact absurd hok (by simp)
    · next fs1 h1 =>
      split at hok
      · exact absurd hok (by simp)
      · next fs2 h2 =>
        split at hok
        · exact absurd hok (by simp)
        · next fs3 h3 =>
          split at hok
          · exact absurd hok (by simp)
          · next fs4 h4 =>
            cases hok
            have p1 := updateIfTruthy_preserve dec fs fs1 "metrics" h1
            have p2 := updateIfTruthy_preserve dec fs1 fs2 "crema" h2
            have p3 := updateIfTruthy_preserve dec fs2 fs3 "source_targets" h3
            have p4 := updateIfTruthy_preserve dec fs3 fs4 "all_metrics_data" h4
            constructor
            · intro k hk v hv
              have hv' : getField fs4 k = some v := hv
              simp only [walkedKeys, List.mem_cons, List.not_mem_nil, or_false] at hk
              rcases hk with hk | hk | hk | hk <;> subst hk
              · rw [p4 _ (by decide), p3 _ (by decide), p2 _ (by decide)] at hv'
                exact updateIfTruthy_envFree dec hdec fs fs1 "metrics" h1 v hv'
              · rw [p4 _ (by decide), p3 _ (by decide)] at hv'
                exact updateIfTruthy_envFree dec hdec fs1 fs2 "crema" h2 v hv'
              · rw [p4 _ (by decide)] at hv'
                exact updateIfTruthy_envFree dec hdec fs2 fs3 "source_targets" h3 v hv'
              · exact updateIfTruthy_envFree dec hdec fs3 fs4 "all_metrics_data" h4 v hv'
            · intro k hk
              simp only [walkedKeys, List.mem_cons, List.not_mem_nil, or_false, not_or] at hk
              show getField fs4 k = getField fs k
              rw [p4 _ hk.2.2.2, p3 _ hk.2.2.1, p2 _ hk.2.1, p1 _ hk.1]

/-- C1 counterexample: a document with an `_encryption` block whose only
envelope sits under the top-level key `x` — not one of the four walked
keys — is returned by `decryptSensitiveFields` completely unchanged, still
containing the envelope, although the oracle decrypts every ciphertext.
This refutes "replaces every encrypted envelope … under any top-level
key". -/
theorem C1_counterexample :
    hasTruthyField exDocC1 "_encryption" = true ∧
    decryptSensitiveFields exDec exDocC1 = Except.ok exDocC1 ∧
    containsEnvelope exDocC1 = true :=
  ⟨rfl, rfl, rfl⟩

/-- C1 witness: the amended theorem applied to a concrete encrypted
document with an envelope nested under `metrics`. -/
theorem C1_witness :
    containsEnvelope (JsonValue.obj [("top_donors", JsonValue.str "plain")]) = false :=
  (C1_amended exDec exW1doc exW1out
      (fun _ _ h => by cases h; rfl) rfl rfl).1 "metrics" (by simp [walkedKeys])
    (JsonValue.obj [("top_donors", JsonValue.str "plain")]) rfl

/-- C3: on an encrypted document, every failure of `decryptSensitiveFields`
carries exactly the fixed `DecryptionError` message "Failed to decrypt
data. Invalid key or corrupted data.", and the operation fails (with that
message) precisely when the walk reaches an envelope whose ciphertext does
not decrypt under the derived key — covering authentication failure, bad
base64, bad UTF-8 and unparseable JSON, all of which the oracle maps to
`none`.  The error case of the result carries no document, and the
embedding is a pure function of the input (the code walks a deep copy), so
no partially decrypted output reaches the caller. -/
theorem C3_atomic_failure (dec : String → Option JsonValue) (data : JsonValue)
    (henc : hasTruthyField data "_encryption" = true) :
    (∀ m, decryptSensitiveFields dec data = Except.error m → m = decryptFailMsg) ∧
    (decryptSensitiveFields dec data = Except.error decryptFailMsg ↔
      sensitiveFails dec data = true) := by
  cases data with
  | null => simp [hasTruthyField, jsGetOpt] at henc
  | bool b => simp [hasTruthyField, jsGetOpt] at henc
  | num n => simp [hasTruthyField, jsGetOpt] at henc
  | str s => simp [hasTruthyField, jsGetOpt] at henc
  | arr xs => simp [hasTruthyField, jsGetOpt] at henc
  | obj fs =>
    rw [sensitiveFails_obj]
    cases h1 : updateIfTruthy dec fs "metrics" with
    | error m1 =>
      obtain ⟨hm1, hf1⟩ := updateIfTruthy_error dec fs "metrics" m1 h1
      subst hm1
      have hres : decryptSensitiveFields dec (JsonValue.obj fs) =
          Except.error decryptFailMsg := by
        simp only [decryptSensitiveFields]
        rw [if_pos henc]
        simp only [h1]
      rw [hres]
      refine ⟨fun m hm => by cases hm; rfl, ?_⟩
      rw [hf1]
      simp
    | ok fs1 =>
      have hff1 := updateIfTruthy_ok_noFail dec fs fs1 "metrics" h1
      have hp1 := updateIfTruthy_preserve dec fs fs1 "metrics" h1
      have e2 : fieldFails dec fs1 "crema" = fieldFails dec fs "crema" :=
        fieldFails_congr dec fs fs1 "crema" (hp1 "crema" (by decide))
      cases h2 : updateIfTruthy dec fs1 "crema" with
      | error m2 =>
        obtain ⟨hm2, hf2⟩ := updateIfTruthy_error dec fs1 "crema" m2 h2
        subst hm2
        have hres : decryptSensitiveFields dec (JsonValue.obj fs) =
            Except.error decryptFailMsg := by
          simp only [decryptSensitiveFields]
          rw [if_pos henc]
          simp only [h1, h2]
        rw [hres]
        refine ⟨fun m hm => by cases hm; rfl, ?_⟩
        rw [hff1, ← e2, hf2]
        simp
      | ok fs2 =>
        have hff2 := updateIfTruthy_ok_noFail dec fs1 fs2 "crema" h2
        have hp2 := updateIfTruthy_preserve dec fs1 fs2 "crema" h2
        have hp21 : ∀ k', k' ≠ "metrics" → k' ≠ "crema" →
            getField fs2 k' = getField fs k' :=
          fun k' ha hb => (hp2 k' hb).trans (hp1 k' ha)
        have e3 : fieldFails dec fs2 "source_targets" = fieldFails dec fs "source_targets" :=
          fieldFails_congr dec fs fs2 "source_targets"
            (hp21 "source_targets" (by decide) (by decide))
        cases h3 : updateIfTruthy dec fs2 "source_targets" with
        | error m3 =>
          obtain ⟨hm3, hf3⟩ := updateIfTruthy_error dec fs2 "source_targets" m3 h3
          subst hm3
          have hres : decryptSensitiveFields dec (JsonValue.obj fs) =
              Except.error decryptFailMsg := by
            simp only [decryptSensitiveFields]
            rw [if_pos henc]
            simp only [h1, h2, h3]
          rw [hres]
          refine ⟨fun m hm => by cases hm; rfl, ?_⟩
          rw [hff1, ← e2, hff2, ← e3, hf3]
          simp
        | ok fs3 =>
          have hff3 := updateIfTruthy_ok_noFail dec fs2 fs3 "source_targets" h3
          have hp3 := updateIfTruthy_preserve dec fs2 fs3 "source_targets" h3
          have hp321 : ∀ k', k' ≠ "metrics" → k' ≠ "crema" → k' ≠ "source_targets" →
              getField fs3 k' = getField fs k' :=
            fun k' ha hb hc => (hp3 k' hc).trans (hp21 k' ha hb)
          have e4 : fieldFails dec fs3 "all_metrics_data" =
              fieldFails dec fs "all_metrics_data" :=
            fieldFails_congr dec fs fs3 "all_metrics_data"
              (hp321 "all_metrics_data" (by decide) (by decide) (by decide))
          cases h4 : updateIfTruthy dec fs3 "all_metrics_data" with
          | error m4 =>
            obtain ⟨hm4, hf4⟩ := updateIfTruthy_error dec fs3 "all_metrics_data" m4 h4
            subst hm4
            have hres : decryptSensitiveFields dec (JsonValue.obj fs) =
                Except.error decryptFailMsg := by
              simp only [decryptSensitiveFields]
              rw [if_pos henc]
              simp only [h1, h2, h3, h4]
            rw [hres]
            refine ⟨fun m hm => by cases hm; rfl, ?_⟩
            rw [hff1, ← e2, hff2, ← e3, hff3, ← e4, hf4]
            simp
          | ok fs4 =>
            have hff4 := updateIfTruthy_ok_noFail dec fs3 fs4 "all_metrics_data" h4
            have hres : decryptSensitiveFields dec (JsonValue.obj fs) =
                Except.ok (JsonValue.obj fs4) := by
              simp only [decryptSensitiveFields]
              rw [if_pos henc]
              simp only [h1, h2, h3, h4]
            rw [hres]
            rw [hff1, ← e2, hff2, ← e3, hff3, ← e4, hff4]
            exact ⟨fun m hm => absurd hm (by simp), by simp⟩

/-- C3 witness: with an always-failing oracle (wrong secret) and a concrete
document holding one envelope under `metrics`, the operation fails with the
fixed message. -/
theorem C3_witness :
    decryptSensitiveFields exDecFail exDocC3 = Except.error decryptFailMsg :=
  (C3_atomic_failure exDecFail exDocC3 rfl).2.mpr rfl

/-- C8 (amended): the recursive decryption walk is the identity on every
value containing no occurrence of the three metadata keys `_encryption`,
`_encrypted`, `_data` (in particular no envelope) — but not on every
envelope-free value, because stray metadata keys are dropped (see the
counterexample) — and on sequences a successful walk returns a sequence of
the same length whose `i`-th element is the walked `i`-th input element,
for sequences of any length including zero. -/
theorem C8_amended (dec : String → Option JsonValue) :
    (∀ v, metaFree v = true → decryptDataStructure dec v = Except.ok v) ∧
    (∀ xs w, decryptDataStructure dec (JsonValue.arr xs) = Except.ok w →
      ∃ ys, w = JsonValue.arr ys ∧ ys.length = xs.length ∧
        ∀ i (h1 : i < xs.length) (h2 : i < ys.length),
          decryptDataStructure dec (xs.get ⟨i, h1⟩) = Except.ok (ys.get ⟨i, h2⟩)) := by
  constructor
  · exact fun v h => metaFree_walk_id dec v h
  · intro xs w h
    simp only [decryptDataStructure] at h
    split at h
    · next ys hys =>
      cases h
      obtain ⟨hlen, hpt⟩ := decryptList_pointwise dec xs ys hys
      exact ⟨ys, rfl, hlen, hpt⟩
    · exact absurd h (by simp)

/-- C8 counterexample: `{ _data: "x" }` contains no encrypted envelope
(`_encrypted` is absent), yet the walk does not leave it unchanged — it
drops the metadata key and returns `{}`.  This refutes "no remaining
envelopes ⇒ unchanged output". -/
theorem C8_counterexample :
    containsEnvelope (JsonValue.obj [("_data", JsonValue.str "x")]) = false ∧
    decryptDataStructure exDec (JsonValue.obj [("_data", JsonValue.str "x")]) =
      Except.ok (JsonValue.obj []) ∧
    JsonValue.obj [] ≠ JsonValue.obj [("_data", JsonValue.str "x")] :=
  ⟨rfl, rfl, by simp⟩

/-- C8 witness: the amended theorem applied to a concrete metadata-free
array. -/
theorem C8_witness :
    decryptDataStructure exDec (JsonValue.arr [JsonValue.num 1, JsonValue.str "a"]) =
      Except.ok (JsonValue.arr [JsonValue.num 1, JsonValue.str "a"]) :=
  (C8_amended exDec).1 (JsonValue.arr [JsonValue.num 1, JsonValue.str "a"]) rfl

/-- C4: secret acquisition tries, in order, (a) a truthy secret in the
session-scoped store, (b) a truthy access token (`localStorage` preferred,
then `sessionStorage`), (c) the interactive dialog, returning the first
truthy value; a cancelled dialog yields `none`, and the page-level load of
an encrypted document then fails hard with `noKeyMsg` instead of returning
any document. -/
theorem C4_secret_order (env : WebEnv) (decFor : String → String → Option JsonValue)
    (data : JsonValue) (timeRange : String) :
    (truthyS (storeGet env.sessionStorage storageKey) = true →
      (getDecryptionKey env).1 = storeGet env.sessionStorage storageKey) ∧
    (truthyS (storeGet env.sessionStorage storageKey) = false →
      truthyS (jsOrS (storeGet env.localStorage "api_token")
        (storeGet env.sessionStorage "api_token")) = true →
      (getDecryptionKey env).1 =
        jsOrS (storeGet env.localStorage "api_token")
          (storeGet env.sessionStorage "api_token")) ∧
    (truthyS (storeGet env.sessionStorage storageKey) = false →
      truthyS (jsOrS (storeGet env.localStorage "api_token")
        (storeGet env.sessionStorage "api_token")) = false →
      ∀ p, env.dialog = some p → p ≠ "" → (getDecryptionKey env).1 = some p) ∧
    (truthyS (storeGet env.sessionStorage storageKey) = false →
      truthyS (jsOrS (storeGet env.localStorage "api_token")
        (storeGet env.sessionStorage "api_token")) = false →
      env.dialog = none → (getDecryptionKey env).1 = none) ∧
    (hasTruthyField data "_encryption" = true →
      (getDecryptionKey env).1 = none →
      (loadDashboardFromData decFor env data timeRange).1 = Except.error noKeyMsg) := by
  refine ⟨?_, ?_, ?_, ?_, ?_⟩
  · intro h1
    simp only [getDecryptionKey, h1]
    rfl
  · intro h1 h2
    simp only [getDecryptionKey, h1, h2]
    rfl
  · intro h1 h2 p hp hne
    simp only [getDecryptionKey, h1, h2, hp]
    simp [hne]
  · intro h1 h2 h3
    simp only [getDecryptionKey, h1, h2, h3]
    rfl
  · intro henc hkey
    simp only [loadDashboardFromData, henc, if_pos rfl]
    rw [hkey]
    rfl

/-- C4 witness: empty stores and a cancelled dialog produce no secret, and
the load of an encrypted document fails with the hard decryption error. -/
theorem C4_witness :
    (loadDashboardFromData exDecFor exEnvEmpty exEncDoc "today").1 =
      Except.error noKeyMsg :=
  (C4_secret_order exEnvEmpty exDecFor exEncDoc "today").2.2.2.2 rfl rfl

/-- C5: `getDecryptionKey` leaves durable storage (`localStorage`)
unchanged in every execution, and touches `sessionStorage` only by storing
the interactively obtained secret under `storageKey` (and only when the
dialog produced a truthy password). -/
theorem C5_no_durable_write (env : WebEnv) :
    (getDecryptionKey env).2.localStorage = env.localStorage ∧
    ((getDecryptionKey env).2.sessionStorage = env.sessionStorage ∨
      ∃ p, env.dialog = some p ∧ p ≠ "" ∧
        (getDecryptionKey env).2.sessionStorage =
          storeSet env.sessionStorage storageKey p) := by
  unfold getDecryptionKey
  by_cases h1 : truthyS (storeGet env.sessionStorage storageKey) = true
  · simp only [h1]
    exact ⟨rfl, Or.inl rfl⟩
  · rw [Bool.not_eq_true] at h1
    simp only [h1]
    by_cases h2 : truthyS (jsOrS (storeGet env.localStorage "api_token")
        (storeGet env.sessionStorage "api_token")) = true
    · simp only [h2]
      exact ⟨rfl, Or.inl rfl⟩
    · rw [Bool.not_eq_true] at h2
      simp only [h2]
      cases hd : env.dialog with
      | none => exact ⟨rfl, Or.inl rfl⟩
      | some p =>
        by_cases hp : p = ""
        · subst hp
          simp only [bne_self_eq_false]
          exact ⟨rfl, Or.inl rfl⟩
        · have hp' : (p != "") = true := by simpa using hp
          simp only [hp']
          exact ⟨rfl, Or.inr ⟨p, rfl, hp, rfl⟩⟩

/-- C10: when the fetch completes but the response has a non-success
status, `search` returns `undefined` (neither a results array nor a thrown
error); a network-level fetch rejection is rethrown; and `getEntityData`
delegates to `search` on the built entity query, inheriting both
behaviours. -/
theorem C10_search_nonok (fetchOf : String → SearchFetchOutcome) (q : String) :
    (∀ body, fetchOf q = Except.ok (false, body) →
      searchOp fetchOf q = SearchOutcome.ret none) ∧
    (∀ e, fetchOf q = Except.error e → searchOp fetchOf q = SearchOutcome.thrown e) ∧
    (∀ entityType filters, getEntityDataOp fetchOf entityType filters =
      searchOp fetchOf (buildEntityQuery entityType filters)) := by
  refine ⟨?_, ?_, fun _ _ => rfl⟩
  · intro body h
    simp only [searchOp, search, h]
    rfl
  · intro e h
    simp only [searchOp, search, h]

/-- C10 witness: a concrete non-success response makes `search` return
`undefined`. -/
theorem C10_witness : searchOp exFetchC10 "q" = SearchOutcome.ret none :=
  (C10_search_nonok exFetchC10 "q").1 (Except.ok (JsonValue.obj [])) rfl

theorem firstPresentRec_eq (allData : JsonValue) :
    ∀ ps, firstPresentRec allData ps =
      match firstPresent allData ps with
      | some p => present allData p
      | none => none := by
  intro ps
  induction ps with
  | nil => rfl
  | cons p ps ih =>
    simp only [firstPresentRec, firstPresent]
    cases hp : present allData p with
    | some r => simp [hp]
    | none => simp [hp, ih]

theorem firstPresent_append (allData : JsonValue) (xs ys : List String) :
    firstPresent allData (xs ++ ys) =
      match firstPresent allData xs with
      | some p => some p
      | none => firstPresent allData ys := by
  induction xs with
  | nil => rfl
  | cons x xs ih =>
    simp only [List.cons_append, firstPresent]
    by_cases hx : (present allData x).isSome = true
    · simp [hx]
    · simp [hx, ih]

theorem firstPresentRec_none (allData : JsonValue) (ps : List String)
    (h : ∀ p ∈ ps, present allData p = none) :
    firstPresentRec allData ps = none := by
  induction ps with
  | nil => rfl
  | cons p ps ih =>
    simp only [firstPresentRec, h p (by simp)]
    exact ih (fun q hq => h q (by simp [hq]))

theorem present_invariant (allData : JsonValue) (p : String) (r : JsonValue)
    (hinv : metricsInvariant allData = true) (hp : present allData p = some r) :
    (jsGetD r "metrics" JsonValue.null).isTruthy = true := by
  unfold present at hp
  split at hp
  · next m hm =>
    split at hp
    · next r0 hr0 =>
      split at hp
      · next htr =>
        cases hp
        cases m with
        | obj fs =>
          unfold metricsInvariant at hinv
          rw [hm] at hinv
          simp only [List.all_eq_true] at hinv
          have hr0' : getField fs p = some r := hr0
          unfold getField at hr0'
          rw [Option.map_eq_some'] at hr0'
          obtain ⟨pr, hfind, hpr2⟩ := hr0'
          have hmem := List.mem_of_find?_eq_some hfind
          have hx := hinv pr hmem
          rw [Bool.or_eq_true, Bool.not_eq_true'] at hx
          rcases hx with hx | hx
          · rw [hpr2] at hx
            rw [hx] at htr
            cases htr
          · rw [hpr2] at hx
            exact hx
        | null => exact absurd hr0 (by simp [jsGetOpt])
        | bool b => exact absurd hr0 (by simp [jsGetOpt])
        | num n => exact absurd hr0 (by simp [jsGetOpt])
        | str s => exact absurd hr0 (by simp [jsGetOpt])
        | arr xs => exact absurd hr0 (by simp [jsGetOpt])
      · exact absurd hp (by simp)
    · exact absurd hp (by simp)
  · exact absurd hp (by simp)

/-- C2: in cache mode the period resolution returns the exact period's
record when it is present (with a truthy record), otherwise the record of
the first present period of the search order (the fallback chain in its
listed order, then `this_year`), and under the data-model invariant
(`metricsInvariant`) the miss-path `getMetrics` computation returns that
record's `metrics` without throwing whenever any search-order entry is
present.  The spec's concrete example is included: the snapshot holding
only `this_month`, requested with `today`, yields the `this_month`
record. -/
theorem C2_fallback (allData : JsonValue) (timeRange : String)
    (hinv : metricsInvariant allData = true) :
    (∀ p r, firstPresent allData (searchOrder timeRange) = some p →
      present allData p = some r →
      resolvePeriodRecord allData timeRange = Except.ok r ∧
      cacheMissResult allData timeRange = Except.ok (jsGetD r "metrics" JsonValue.null)) ∧
    (resolvePeriodRecord exSnapC2 "today" = Except.ok exThisMonthRec ∧
     cacheMissResult exSnapC2 "today" =
       Except.ok (JsonValue.obj [("revenue", JsonValue.num 100)])) := by
  refine ⟨?_, rfl, rfl⟩
  intro p r hfp hpr
  have hres : resolvePeriodRecord allData timeRange = Except.ok r := by
    unfold resolvePeriodRecord
    unfold searchOrder at hfp
    simp only [firstPresent] at hfp
    by_cases hex : (present allData timeRange).isSome = true
    · rw [if_pos hex] at hfp
      cases hfp
      simp [hpr]
    · rw [if_neg hex] at hfp
      have hexn : present allData timeRange = none := by
        cases hcc : present allData timeRange with
        | some rr => rw [hcc] at hex; simp at hex
        | none => rfl
      rw [firstPresent_append] at hfp
      rw [firstPresentRec_eq]
      cases hxs : firstPresent allData (fallbackMap timeRange) with
      | some p2 =>
        simp only [hxs] at hfp
        cases hfp
        simp [hexn, hxs, hpr]
      | none =>
        simp only [hxs] at hfp
        simp only [firstPresent] at hfp
        by_cases hty : (present allData "this_year").isSome = true
        · rw [if_pos hty] at hfp
          cases hfp
          simp [hexn, hxs, hpr]
        · rw [if_neg hty] at hfp
          exact absurd hfp (by simp)
  refine ⟨hres, ?_⟩
  have htr := present_invariant allData p r hinv hpr
  have hbm : jsGetD (buildRecord allData timeRange r) "metrics" JsonValue.null =
      jsGetD r "metrics" JsonValue.null := rfl
  unfold cacheMissResult loadAndStore
  simp [hres, hbm, htr]

/-- C2 witness: the fallback theorem applied to the spec's concrete
example snapshot. -/
theorem C2_witness :
    resolvePeriodRecord exSnapC2 "today" = Except.ok exThisMonthRec :=
  ((C2_fallback exSnapC2 "today" rfl).1 "this_month" exThisMonthRec rfl rfl).1

theorem isPrefixL_append (l t : List Char) : isPrefixL l (l ++ t) = true := by
  induction l with
  | nil => rfl
  | cons c l ih => simp [isPrefixL, ih]

theorem isPrefixL_refl (l : List Char) : isPrefixL l l = true := by
  simpa using isPrefixL_append l []

theorem isInfixL_of_prefix (n h : List Char) (hp : isPrefixL n h = true) :
    isInfixL n h = true := by
  cases h with
  | nil => exact hp
  | cons c t => simp [isInfixL, hp]

theorem isInfixL_cons (n : List Char) (c : Char) (t : List Char)
    (hi : isInfixL n t = true) : isInfixL n (c :: t) = true := by
  simp [isInfixL, hi]

theorem isInfixL_append_left (n s t : List Char) (hi : isInfixL n t = true) :
    isInfixL n (s ++ t) = true := by
  induction s with
  | nil => exact hi
  | cons c s ih => exact isInfixL_cons n c (s ++ t) ih

theorem joinComma_has_mem (k : String) (ks : List String) (hk : k ∈ ks) :
    isInfixL k.data (joinComma ks).data = true := by
  induction ks with
  | nil => cases hk
  | cons k0 ks ih =>
    rcases List.mem_cons.mp hk with h | h
    · subst h
      cases ks with
      | nil => exact isInfixL_of_prefix _ _ (isPrefixL_refl _)
      | cons k1 ks2 =>
        have hje : joinComma (k :: k1 :: ks2) = (k ++ ", ") ++ joinComma (k1 :: ks2) := rfl
        rw [hje, String.data_append, String.data_append, List.append_assoc]
        exact isInfixL_of_prefix _ _ (isPrefixL_append _ _)
    · cases ks with
      | nil => cases h
      | cons k1 ks2 =>
        have hje : joinComma (k0 :: k1 :: ks2) = (k0 ++ ", ") ++ joinComma (k1 :: ks2) := rfl
        rw [hje, String.data_append]
        exact isInfixL_append_left _ _ _ (ih h)

theorem strContains_notFoundMsg (timeRange k : String) (ks : List String)
    (hk : k ∈ ks) : strContains (notFoundMsg timeRange ks) k = true := by
  unfold strContains notFoundMsg
  rw [String.data_append]
  exact isInfixL_append_left _ _ _ (joinComma_has_mem k ks hk)

/-- C6 (amended): when the requested period, every fallback-chain entry and
`this_year` are all absent, `_loadCacheFile` fails with the fixed message
"Time range '<t>' not found in cache file and no fallback available",
which does not enumerate the present periods (see the counterexample);
the enumerating "period not found" error belongs to
`loadDecryptedDashboard`'s extraction step, which has no fallback chain and
fails whenever the exact requested period is absent with a message that
contains every period identifier actually present in the document's
`metrics` mapping. -/
theorem C6_amended (allData : JsonValue) (timeRange : String) :
    (allAbsent allData timeRange = true →
      resolvePeriodRecord allData timeRange = Except.error (noFallbackMsg timeRange)) ∧
    (∀ m, jsGetOpt allData "metrics" = some m → m.isTruthy = true →
      hasTruthyField m timeRange = false →
      extractTimeRange allData timeRange =
        Except.error (notFoundMsg timeRange (objKeys m)) ∧
      ∀ k, k ∈ objKeys m →
        strContains (notFoundMsg timeRange (objKeys m)) k = true) := by
  constructor
  · intro hab
    unfold allAbsent at hab
    rw [List.all_eq_true] at hab
    have h0 : present allData timeRange = none := by
      have := hab timeRange (by simp [searchOrder])
      simpa [Option.isNone_iff_eq_none] using this
    have hty : present allData "this_year" = none := by
      have := hab "this_year" (by simp [searchOrder])
      simpa [Option.isNone_iff_eq_none] using this
    have hchain : firstPresentRec allData (fallbackMap timeRange) = none := by
      refine firstPresentRec_none allData _ (fun q hq => ?_)
      have := hab q (by simp [searchOrder, hq])
      simpa [Option.isNone_iff_eq_none] using this
    unfold resolvePeriodRecord
    simp only [h0, hchain, hty]
  · intro m hm htr habs
    constructor
    · unfold extractTimeRange
      rw [hm]
      simp only [htr, if_pos rfl]
      cases hmt : jsGetOpt m timeRange with
      | some r =>
        have hrf : r.isTruthy = false := by
          unfold hasTruthyField at habs
          rw [hmt] at habs
          exact habs
        simp [hrf]
      | none => simp
    · intro k hk
      exact strContains_notFoundMsg timeRange k _ hk

/-- C6 counterexample: with only the period `m1` present, a request for
`today` exhausts the whole fallback chain and `_loadCacheFile` throws its
fixed message, which does not mention the present period `m1` — refuting
"whose message enumerates the period identifiers actually present". -/
theorem C6_counterexample :
    resolvePeriodRecord exSnapC6 "today" = Except.error (noFallbackMsg "today") ∧
    objKeys (jsGetD exSnapC6 "metrics" JsonValue.null) = ["m1"] ∧
    strContains (noFallbackMsg "today") "m1" = false :=
  ⟨rfl, rfl, rfl⟩

/-- C6 witness: the amended theorem's enumerating branch applied to the
concrete snapshot, showing the present period appears in the page-level
error message. -/
theorem C6_witness :
    strContains (notFoundMsg "today" ["m1"]) "m1" = true :=
  ((C6_amended exSnapC6 "today").2
      (JsonValue.obj [("m1", JsonValue.obj [("metrics", JsonValue.obj [("x", JsonValue.num 1)])])])
      rfl rfl rfl).2 "m1" (by simp [objKeys])

/-- C7 (amended): a `getMetrics` call finding an in-memory entry for the
period whose age is below the TTL, when the remote file is not newer than
the entry, performs no snapshot fetch — its only network request is the
`HEAD` revalidation request, which the code issues on every cache hit (see
the counterexample) — leaves the cache unchanged and returns the cached
metrics. -/
theorem C7_amended (cache : List (String × CacheEntry)) (timeRange : String)
    (now ttl : Int) (headRes : Except Unit (Option Int))
    (loadRes : Except String JsonValue) (entry : CacheEntry)
    (hentry : cacheGet cache ("metrics_" ++ timeRange) = some entry)
    (hnotnewer : ∀ t, headRes = Except.ok (some t) → ¬(t > entry.timestamp))
    (hfresh : now - entry.timestamp < ttl) :
    getMetricsFromCache cache timeRange now ttl headRes loadRes =
      (Except.ok (jsGetD entry.data "metrics" JsonValue.null), cache,
        [FetchEffect.head]) := by
  cases headRes with
  | error u =>
    unfold getMetricsFromCache
    simp only [hentry]
    rw [if_pos hfresh]
  | ok o =>
    cases o with
    | none =>
      unfold getMetricsFromCache
      simp only [hentry]
      rw [if_pos hfresh]
    | some t =>
      unfold getMetricsFromCache
      simp only [hentry]
      rw [if_neg (hnotnewer t rfl)]
      simp only [hentry]
      rw [if_pos hfresh]

/-- C7 counterexample: a first (miss) call stores the entry; the second
call for the same period, within the TTL and with the remote file older
than the entry, still performs a network fetch — the `HEAD` revalidation
request — so its request list is not empty, refuting "performs no fetch";
it does return the cached metrics. -/
theorem C7_counterexample :
    exC7call1.2.2 = [FetchEffect.load] ∧
    exC7call2.2.2 = [FetchEffect.head] ∧
    exC7call2.2.2 ≠ ([] : List FetchEffect) ∧
    exC7call2.1 = Except.ok (JsonValue.obj [("revenue", JsonValue.num 5)]) :=
  ⟨rfl, rfl, by
    have h2 : exC7call2.2.2 = [FetchEffect.head] := rfl
    rw [h2]
    simp, rfl⟩

/-- C7 witness: the amended theorem applied to a concrete cache state. -/
theorem C7_witness :
    getMetricsFromCache
      [("metrics_this_year",
        ⟨JsonValue.obj [("metrics", JsonValue.obj [("a", JsonValue.num 1)])], 100⟩)]
      "this_year" 200 3600000 (Except.ok (some 50)) (Except.error "nope") =
    (Except.ok (JsonValue.obj [("a", JsonValue.num 1)]),
     [("metrics_this_year",
        ⟨JsonValue.obj [("metrics", JsonValue.obj [("a", JsonValue.num 1)])], 100⟩)],
     [FetchEffect.head]) :=
  C7_amended
    [("metrics_this_year",
      ⟨JsonValue.obj [("metrics", JsonValue.obj [("a", JsonValue.num 1)])], 100⟩)]
    "this_year" 200 3600000 (Except.ok (some 50)) (Except.error "nope")
    ⟨JsonValue.obj [("metrics", JsonValue.obj [("a", JsonValue.num 1)])], 100⟩
    rfl
    (fun t ht => by
      have h3 : (50 : Int) = t := Option.some.inj (Except.ok.inj ht)
      rw [← h3]
      decide)
    (by decide)

theorem isPrefixL_iff (n : List Char) : ∀ h, isPrefixL n h = true ↔ ∃ t, h = n ++ t := by
  induction n with
  | nil =>
    intro h
    constructor
    · intro _
      exact ⟨h, rfl⟩
    · intro _
      rfl
  | cons c n ih =>
    intro h
    cases h with
    | nil =>
      simp [isPrefixL]
    | cons b t =>
      simp only [isPrefixL, Bool.and_eq_true, decide_eq_true_eq, ih]
      constructor
      · rintro ⟨hcb, t2, ht2⟩
        exact ⟨t2, by rw [← hcb, ht2]; rfl⟩
      · rintro ⟨t2, ht2⟩
        injection ht2 with h1 h2
        exact ⟨h1.symm, t2, h2⟩

theorem takeWhile_middle (p : Char → Bool) (seg : List Char) (c : Char)
    (rest : List Char) (h1 : ∀ x ∈ seg, p x = true) (h2 : p c = false) :
    (seg ++ c :: rest).takeWhile p = seg := by
  induction seg with
  | nil => simp [List.takeWhile_cons, h2]
  | cons s seg ih =>
    simp [List.takeWhile_cons, h1 s (by simp),
      ih (fun x hx => h1 x (by simp [hx]))]

theorem appMatchAt_some (cs cap : List Char) (h : appMatchAt cs = some cap) :
    ∃ seg rest, cs = tenantsLit ++ seg ++ appLit ++ rest ∧ seg ≠ [] ∧
      (∀ c ∈ seg, c ≠ '/') ∧ (rest = [] ∨ ∃ r, rest = '/' :: r) ∧
      cap = tenantsLit ++ seg ++ appLit := by
  unfold appMatchAt at h
  split at h
  · next hpre =>
    obtain ⟨t, ht⟩ := (isPrefixL_iff tenantsLit cs).mp hpre
    subst ht
    rw [List.drop_left] at h
    dsimp only at h
    obtain ⟨u, hu⟩ := List.takeWhile_prefix (fun c : Char => decide (c ≠ '/')) (l := t)
    split at h
    · exact absurd h (by simp)
    · next hseg =>
      split at h
      · next happ =>
        obtain ⟨r2, hr2⟩ :=
          (isPrefixL_iff appLit ((List.drop (t.takeWhile fun c => c ≠ '/').length t))).mp happ
        have hu2 : List.drop (t.takeWhile fun c => c ≠ '/').length t = u := by
          have h0 := List.drop_left (List.takeWhile (fun c : Char => decide (c ≠ '/')) t) u
          rw [hu] at h0
          exact h0
        have hur : u = appLit ++ r2 := by rw [← hu2, hr2]
        have hsplit : t = (t.takeWhile fun c => c ≠ '/') ++ (appLit ++ r2) := by
          rw [← hur]
          exact hu.symm
        rw [hr2, List.drop_left] at h
        have hshape : cap = tenantsLit ++ (t.takeWhile fun c => c ≠ '/') ++ appLit ∧
            (r2 = [] ∨ ∃ r, r2 = '/' :: r) := by
          split at h
          · cases h
            exact ⟨rfl, Or.inl rfl⟩
          · next tail =>
            cases h
            exact ⟨rfl, Or.inr ⟨tail, rfl⟩⟩
          · exact absurd h (by simp)
        refine ⟨t.takeWhile fun c => c ≠ '/', r2, ?_, ?_, ?_, hshape.2, hshape.1⟩
        · exact (congrArg (tenantsLit ++ ·) hsplit).trans (by simp [List.append_assoc])
        · intro hnil
          rw [hnil] at hseg
          exact hseg rfl
        · intro c hc
          have := List.mem_takeWhile_imp hc
          simpa using this
      · exact absurd h (by simp)
  · exact absurd h (by simp)

theorem appMatchAt_of (seg rest : List Char) (hseg : seg ≠ [])
    (hslash : ∀ c ∈ seg, c ≠ '/') (hrest : rest = [] ∨ ∃ r, rest = '/' :: r) :
    appMatchAt (tenantsLit ++ seg ++ appLit ++ rest) =
      some (tenantsLit ++ seg ++ appLit) := by
  have hX : tenantsLit ++ seg ++ appLit ++ rest =
      tenantsLit ++ (seg ++ ('/' :: ('a' :: 'p' :: 'p' :: rest))) := by
    simp [List.append_assoc, appLit]
  unfold appMatchAt
  rw [hX, List.drop_left]
  have htw : (seg ++ ('/' :: ('a' :: 'p' :: 'p' :: rest))).takeWhile
      (fun c => decide (c ≠ '/')) = seg := by
    refine takeWhile_middle _ seg '/' _ (fun x hx => ?_) (by decide)
    simpa using hslash x hx
  rw [if_pos (isPrefixL_append tenantsLit (seg ++ ('/' :: ('a' :: 'p' :: 'p' :: rest))))]
  dsimp only
  rw [htw]
  rw [if_neg (by simp [List.isEmpty_iff, hseg])]
  have hd1 : List.drop seg.length (seg ++ ('/' :: ('a' :: 'p' :: 'p' :: rest))) =
      '/' :: ('a' :: 'p' :: 'p' :: rest) := List.drop_left _ _
  rw [hd1]
  have happ : isPrefixL appLit ('/' :: ('a' :: 'p' :: 'p' :: rest)) = true := by
    have : ('/' :: ('a' :: 'p' :: 'p' :: rest)) = appLit ++ rest := rfl
    rw [this]
    exact isPrefixL_append _ _
  rw [if_pos happ]
  have hd2 : List.drop appLit.length ('/' :: ('a' :: 'p' :: 'p' :: rest)) = rest := by
    have : ('/' :: ('a' :: 'p' :: 'p' :: rest)) = appLit ++ rest := rfl
    rw [this]
    exact List.drop_left _ _
  rw [hd2]
  rcases hrest with hr | ⟨r, hr⟩ <;> subst hr <;> rfl

theorem appMatchL_isSome_of_at (cs : List Char) (cap : List Char)
    (h : appMatchAt cs = some cap) : (appMatchL cs).isSome = true := by
  cases cs with
  | nil =>
    have h0 : appMatchAt ([] : List Char) = none := rfl
    rw [h0] at h
    exact absurd h (by simp)
  | cons c t => simp [appMatchL, h]

theorem appMatchL_some_shape (cs cap : List Char) (h : appMatchL cs = some cap) :
    ∃ X, cap = X ++ appLit := by
  induction cs with
  | nil => exact absurd h (by simp [appMatchL])
  | cons c t ih =>
    simp only [appMatchL] at h
    cases hA : appMatchAt (c :: t) with
    | some cap2 =>
      rw [hA] at h
      cases h
      obtain ⟨seg, rest, _, _, _, _, hcap⟩ := appMatchAt_some (c :: t) cap hA
      exact ⟨tenantsLit ++ seg, by rw [hcap]⟩
    | none =>
      rw [hA] at h
      exact ih h

theorem appMatchL_isSome_iff (cs : List Char) :
    (appMatchL cs).isSome = true ↔ HasTenantPattern cs := by
  constructor
  · intro h
    induction cs with
    | nil => simp [appMatchL] at h
    | cons c t ih =>
      simp only [appMatchL] at h
      cases hA : appMatchAt (c :: t) with
      | some cap =>
        obtain ⟨seg, rest, hcs, h1, h2, h3, _⟩ := appMatchAt_some (c :: t) cap hA
        exact ⟨[], seg, rest, by simpa using hcs, h1, h2, h3⟩
      | none =>
        rw [hA] at h
        simp only [Option.isSome_none] at h
        obtain ⟨pre, seg, rest, hcs, h1, h2, h3⟩ := ih h
        exact ⟨c :: pre, seg, rest, by simp [hcs], h1, h2, h3⟩
  · rintro ⟨pre, seg, rest, hcs, h1, h2, h3⟩
    subst hcs
    induction pre with
    | nil =>
      have hmain := appMatchAt_of seg rest h1 h2 h3
      have hnorm : [] ++ tenantsLit ++ seg ++ appLit ++ rest =
          tenantsLit ++ seg ++ appLit ++ rest := by simp
      rw [hnorm]
      exact appMatchL_isSome_of_at _ _ hmain
    | cons c pre ih2 =>
      have hnorm : c :: pre ++ tenantsLit ++ seg ++ appLit ++ rest =
          c :: (pre ++ tenantsLit ++ seg ++ appLit ++ rest) := by simp
      rw [hnorm]
      simp only [appMatchL]
      cases hA : appMatchAt (c :: (pre ++ tenantsLit ++ seg ++ appLit ++ rest)) with
      | some cap => simp
      | none => simpa using ih2

theorem stripTrailingSlashes_app (X : List Char) :
    stripTrailingSlashesL (X ++ appLit) = X ++ appLit := by
  unfold stripTrailingSlashesL
  rw [List.reverse_append]
  have h1 : appLit.reverse ++ X.reverse = 'p' :: ('p' :: 'a' :: '/' :: X.reverse) := rfl
  rw [h1, List.dropWhile_cons, if_neg (by decide)]
  have h2 : ('p' :: 'p' :: 'a' :: '/' :: X.reverse) = appLit.reverse ++ X.reverse := rfl
  rw [h2, ← List.reverse_append, List.reverse_reverse]

/-- C9 (amended): an absolute cache directory is used verbatim by both
resolvers.  The tenant-app-root regex is characterised declaratively
(`HasTenantPattern`), and `_loadCacheFile` tries it on the original page
path before any production-root matching, so a path containing the tenant
root is never misclassified as `/maps`, of which it is a superstring (the
concrete superstring case is included).  A path without the tenant pattern
whose stripped directory matches the production-root pattern resolves to
`/maps`.  But "any other path yields the default root" fails:
`_loadCacheFile` keeps the stripped page directory as the base and
`_getCacheFilePath` guesses `/<first-segment>/app` — see the
counterexample.  Resolution is a total function on strings, so it never
throws. -/
theorem C9_amended :
    (∀ cacheDir pathname, isPrefixL ['/'] cacheDir.data = true →
      loadCacheFilePath cacheDir pathname = cacheDir ++ "/dashboard_data.json" ∧
      getCacheFilePathFn cacheDir pathname = cacheDir ++ "/dashboard_data.json") ∧
    (∀ cs, (appMatchL cs).isSome = true ↔ HasTenantPattern cs) ∧
    (∀ cacheDir pathname cap, isPrefixL ['/'] cacheDir.data = false →
      appMatchL pathname.data = some cap →
      loadCacheFilePath cacheDir pathname =
        String.mk (collapseSlashesL
          (cap ++ ['/'] ++ cacheDir.data ++ "/dashboard_data.json".data))) ∧
    (∀ cacheDir pathname, isPrefixL ['/'] cacheDir.data = false →
      appMatchL pathname.data = none →
      mapsMatchL (stripLastSegL pathname.data) = true →
      loadCacheFilePath cacheDir pathname =
        String.mk (collapseSlashesL
          ("/maps".data ++ ['/'] ++ cacheDir.data ++ "/dashboard_data.json".data))) ∧
    (appMatchL "/tenants/maps/app/index.html".data = some "/tenants/maps/app".data ∧
     mapsMatchL (stripLastSegL "/tenants/maps/app/index.html".data) = true ∧
     loadCacheFilePath "data" "/tenants/maps/app/index.html" =
       "/tenants/maps/app/data/dashboard_data.json") := by
  refine ⟨?_, appMatchL_isSome_iff, ?_, ?_, rfl, rfl, rfl⟩
  · intro cacheDir pathname h
    constructor
    · unfold loadCacheFilePath
      rw [if_pos h]
    · unfold getCacheFilePathFn
      rw [if_pos h]
  · intro cacheDir pathname cap habs hmatch
    obtain ⟨X, hX⟩ := appMatchL_some_shape pathname.data cap hmatch
    unfold loadCacheFilePath
    rw [if_neg (by simp [habs])]
    simp only [hmatch]
    rw [hX, stripTrailingSlashes_app X]
    cases X with
    | nil => rfl
    | cons x xs => rfl
  · intro cacheDir pathname habs hnone hmaps
    unfold loadCacheFilePath
    rw [if_neg (by simp [habs])]
    simp only [hnone, hmaps, if_pos rfl]
    rfl

/-- C9 counterexample: for the page path `/foo/bar/baz.html` — no tenant
pattern and no production root — `_loadCacheFile` resolves to the stripped
page directory `/foo/bar` and `_getCacheFilePath` guesses `/foo/app`;
neither yields the default root `/maps`, refuting "any other path yields
the default root". -/
theorem C9_counterexample :
    loadCacheFilePath "data" "/foo/bar/baz.html" = "/foo/bar/data/dashboard_data.json" ∧
    getCacheFilePathFn "data" "/foo/bar/baz.html" = "/foo/app/data/dashboard_data.json" ∧
    "/foo/bar/data/dashboard_data.json" ≠ "/maps/data/dashboard_data.json" ∧
    "/foo/app/data/dashboard_data.json" ≠ "/maps/data/dashboard_data.json" :=
  ⟨rfl, rfl, by decide, by decide⟩

/-- C9 witness: the tenant-root branch of the amended theorem at a concrete
tenant page path. -/
theorem C9_witness :
    loadCacheFilePath "data" "/tenants/acme/app/index.html" =
      "/tenants/acme/app/data/dashboard_data.json" :=
  (C9_amended.2.2.1 "data" "/tenants/acme/app/index.html"
    "/tenants/acme/app".data rfl rfl).trans rfl
